import Mathlib

/-!
Verification development for the core of the toon terminal UI engine.

The definitions below are a shallow embedding of the Rust sources:
terminal.rs (the frame differ and the draw/event loop), vec2.rs
(2-dimensional vectors), elements/filter/border.rs (the border filter)
and backend/mod.rs (the backend operation vocabulary).  Machine integers
(u16) are embedded as Nat together with explicit checked/saturating
helpers where Rust overflow semantics matter.  Components of the crate
whose sources are not part of this snapshot (the cell grid in buffer.rs
and the dummy backend in backend/dummy.rs) are modelled from the
specification; each such definition says so in its doc comment.
-/

namespace Toon

/-- Embeds Vec2 of vec2.rs: a pair of an x and a y component. -/
structure Vec2 (α : Type) where
  x : α
  y : α
deriving DecidableEq

/-- One of the eight named base terminal colors (spec section 3, Color). -/
inductive BaseColor
  | black | red | green | yellow | blue | magenta | cyan | white
deriving DecidableEq

/-- Embeds the Color type: a named color with a bright flag, a 256-palette
index, a 24-bit rgb triple, or the terminal default. -/
inductive Color
  | default
  | named (base : BaseColor) (bright : Bool)
  | palette (index : Nat)
  | rgb (r g b : Nat)
deriving DecidableEq

/-- Embeds the text intensity attribute. -/
inductive Intensity
  | normal | bold | dim
deriving DecidableEq

/-- Embeds Attributes: intensity plus four boolean attributes. -/
structure Attributes where
  intensity : Intensity
  italic : Bool
  underlined : Bool
  blinking : Bool
  crossed_out : Bool
deriving DecidableEq

/-- The default attributes: normal intensity, all flags off. -/
def Attributes.default : Attributes :=
  ⟨Intensity.normal, false, false, false, false⟩

/-- Embeds Style: foreground color, background color and attributes. -/
structure Style where
  foreground : Color
  background : Color
  attributes : Attributes
deriving DecidableEq

/-- The default style: default colors and default attributes. -/
def Style.default : Style :=
  ⟨Color.default, Color.default, Attributes.default⟩

/-- Embeds CursorShape. -/
inductive CursorShape
  | block | underline | bar
deriving DecidableEq

/-- Embeds Cursor: position, shape and a blinking flag. -/
structure Cursor where
  pos : Vec2 Nat
  shape : CursorShape
  blinking : Bool
deriving DecidableEq

/-- Modelled from the spec: a cell of the grid (buffer.rs is not part of
the snapshot).  A cell is either a glyph cell carrying its contents, a
double-wide flag and a style, or a continuation cell, the right half of a
preceding double-wide glyph. -/
inductive Cell
  | char (contents : String) (double : Bool) (style : Style)
  | continuation
deriving DecidableEq

/-- Modelled from the spec: a blank cell is a single space with the
default style. -/
def Cell.blank : Cell :=
  Cell.char (" ") false Style.default

/-- Modelled from the spec: a grid is a width together with its rows of
cells in row-major order (buffer.rs is not part of the snapshot). -/
structure Grid where
  width : Nat
  rows : List (List Cell)
deriving DecidableEq

/-- Embeds Buffer: a grid plus an optional cursor. -/
structure Buffer where
  grid : Grid
  cursor : Option Cursor
deriving DecidableEq

/-- Embeds the Operation vocabulary of the Bound backend capability
(backend/mod.rs): every imperative call the differ can make. -/
inductive Operation
  | setForeground (c : Color)
  | setBackground (c : Color)
  | setIntensity (i : Intensity)
  | setItalic (b : Bool)
  | setUnderlined (b : Bool)
  | setBlinking (b : Bool)
  | setCrossedOut (b : Bool)
  | setCursorPos (pos : Vec2 Nat)
  | write (text : String)
  | showCursor
  | hideCursor
  | setCursorShape (s : CursorShape)
  | setCursorBlinking (b : Bool)
deriving DecidableEq

/-- The u16 maximum value. -/
def u16Max : Nat := 65535

/-- Checked u16 subtraction: Rust a - b for u16 panics on underflow
(with debug assertions), modelled as none. -/
def u16subCk (a b : Nat) : Option Nat :=
  if b ≤ a then some (a - b) else none

/-- Checked u16 addition: Rust a + b for u16 panics on overflow
(with debug assertions), modelled as none. -/
def u16addCk (a b : Nat) : Option Nat :=
  if a + b ≤ u16Max then some (a + b) else none

/-- Saturating u16 addition, as used by u16 saturating_add. -/
def u16satAdd (a b : Nat) : Nat :=
  min (a + b) u16Max

/-! ### The frame differ, embedded from Terminal::diff in terminal.rs -/

/-- The state the terminal threads through the differ: the style the
backend currently holds and the position the backend cursor is at. -/
structure DiffState where
  style : Style
  cursorPos : Vec2 Nat
deriving DecidableEq

/-- Embeds the diff_styles macro expansion in Terminal::diff: one
conditional set operation per style field, in source order. -/
def diffStyles (old new : Style) : List Operation :=
  (if old.foreground = new.foreground then [] else [Operation.setForeground new.foreground])
    ++ (if old.background = new.background then [] else [Operation.setBackground new.background])
    ++ (if old.attributes.intensity = new.attributes.intensity then []
        else [Operation.setIntensity new.attributes.intensity])
    ++ (if old.attributes.italic = new.attributes.italic then []
        else [Operation.setItalic new.attributes.italic])
    ++ (if old.attributes.underlined = new.attributes.underlined then []
        else [Operation.setUnderlined new.attributes.underlined])
    ++ (if old.attributes.blinking = new.attributes.blinking then []
        else [Operation.setBlinking new.attributes.blinking])
    ++ (if old.attributes.crossed_out = new.attributes.crossed_out then []
        else [Operation.setCrossedOut new.attributes.crossed_out])

/-- Embeds the body of the cell loop of Terminal::diff for one pair of
cells at position pos: skip equal cells and continuation cells, else
emit style changes, a conditional cursor move and the write, then update
the held style and advance the tracked cursor position clamped to the
grid width. -/
def diffCell (width : Nat) (pos : Vec2 Nat) (oldCell newCell : Cell) (s : DiffState) :
    List Operation × DiffState :=
  if newCell = oldCell then ([], s)
  else
    match newCell with
    | Cell.continuation => ([], s)
    | Cell.char contents double style =>
      (diffStyles s.style style
        ++ (if s.cursorPos = pos then [] else [Operation.setCursorPos pos])
        ++ [Operation.write contents],
       { style := style,
         cursorPos := ⟨min (pos.x + (if double then 2 else 1)) (width - 1), pos.y⟩ })

/-- Embeds the inner (per-row) loop of Terminal::diff: the zip of the old
and the new row of cells, enumerated from x, processed cell by cell with
the state threaded through.  The fuel argument counts the remaining
iterations; it is min of the two lengths at the top call, which makes
this exactly the zip of the two rows. -/
def diffRowAux (width y : Nat) (o n : List Cell) :
    Nat → Nat → DiffState → List Operation × DiffState
  | _, 0, s => ([], s)
  | x, fuel + 1, s =>
    match o.get? x, n.get? x with
    | some oc, some nc =>
      let p1 := diffCell width ⟨x, y⟩ oc nc s
      let p2 := diffRowAux width y o n (x + 1) fuel p1.2
      (p1.1 ++ p2.1, p2.2)
    | _, _ => ([], s)

/-- One row of the differ, starting at column 0. -/
def diffRow (width y : Nat) (o n : List Cell) (s : DiffState) :
    List Operation × DiffState :=
  diffRowAux width y o n 0 (min o.length n.length) s

/-- Embeds the outer (per-line) loop of Terminal::diff: the zip of the
old and the new lines, enumerated from y. -/
def diffRows (width : Nat) : Nat → List (List Cell) → List (List Cell) → DiffState →
    List Operation × DiffState
  | _, [], _, s => ([], s)
  | _, _ :: _, [], s => ([], s)
  | y, o :: os, n :: ns, s =>
    let p1 := diffRow width y o n s
    let p2 := diffRows width (y + 1) os ns p1.2
    (p1.1 ++ p2.1, p2.2)

/-- Embeds the cursor reconciliation tail of Terminal::diff: show the
cursor if it appeared, re-emit shape and blinking when they changed (or
the cursor appeared), move to the cursor position when the tracked
position differs, and hide the cursor if it disappeared.  Note the
source does not update the tracked cursor position here. -/
def cursorRecon (oldCursor newCursor : Option Cursor) (cursorPos : Vec2 Nat) :
    List Operation :=
  match newCursor with
  | some nc =>
    (if oldCursor = none then [Operation.showCursor] else [])
      ++ (match oldCursor with
          | none => [Operation.setCursorShape nc.shape]
          | some c => if c.shape = nc.shape then [] else [Operation.setCursorShape nc.shape])
      ++ (match oldCursor with
          | none => [Operation.setCursorBlinking nc.blinking]
          | some c =>
            if c.blinking = nc.blinking then [] else [Operation.setCursorBlinking nc.blinking])
      ++ (if cursorPos = nc.pos then [] else [Operation.setCursorPos nc.pos])
  | none =>
    match oldCursor with
    | some _ => [Operation.hideCursor]
    | none => []

/-- Embeds Terminal::diff: the cell loops, the unconditional background
reset and the cursor reconciliation, returning the emitted operation
stream and the final held style and tracked cursor position. -/
def diff (old new : Buffer) (s : DiffState) : List Operation × DiffState :=
  let p := diffRows new.grid.width 0 old.grid.rows new.grid.rows s
  let s2 : DiffState :=
    { p.2 with style := { p.2.style with background := Color.default } }
  (p.1 ++ [Operation.setBackground Color.default] ++ cursorRecon old.cursor new.cursor p.2.cursorPos,
   s2)

/-! ### A virtual backend, modelled from the spec

The dummy backend of backend/dummy.rs is not part of the snapshot; the
state machine below is modelled from the spec: the Bound capability of
section 6 applied to an in-memory grid, with the overwrite rules of the
Grid write operation of section 3 and the cursor advance of section 4.4.
The width of a glyph is supplied as a function from its contents, the
stand-in for unicode display width. -/

/-- Modelled from the spec: the state of a virtual backend holding a
grid, a cursor position, the current writing style and the cursor
visibility state. -/
structure DummyState where
  width : Nat
  rows : List (List Cell)
  cursorPos : Vec2 Nat
  style : Style
  cursorVisible : Bool
  cursorShape : CursorShape
  cursorBlinking : Bool
deriving DecidableEq

/-- Whether a cell is a double-wide glyph cell. -/
def cellDouble : Cell → Bool
  | Cell.char _ true _ => true
  | _ => false

/-- Whether a cell is a continuation cell. -/
def cellCont : Cell → Bool
  | Cell.continuation => true
  | _ => false

/-- Whether the row holds a double-wide glyph cell at column x. -/
def isDoubleAt (row : List Cell) (x : Nat) : Bool :=
  cellDouble ((row.get? x).getD Cell.blank)

/-- Whether the row holds a continuation cell at column x. -/
def isContAt (row : List Cell) (x : Nat) : Bool :=
  cellCont ((row.get? x).getD Cell.blank)

/-- Modelled from the spec: overwrite a single cell of a row, applying
the two cleanup rules of the Grid write operation: overwriting the left
half of a double-wide glyph blanks the orphaned continuation to its
right, and overwriting a continuation blanks the double-wide glyph to
its left. -/
def overwriteAt (row : List Cell) (x : Nat) (c : Cell) : List Cell :=
  let row1 :=
    if isDoubleAt row x then row.set (x + 1) Cell.blank
    else if isContAt row x then row.set (x - 1) Cell.blank
    else row
  row1.set x c

/-- Modelled from the spec: lay one glyph into a row at column x with
the given style.  A double-wide glyph at the last column degrades to a
single space; otherwise a double-wide glyph occupies its cell and the
continuation cell to its right, blanking the remains of any double-wide
glyph it half-covers. -/
def writeGlyphRow (row : List Cell) (x : Nat) (t : String) (d : Bool) (st : Style)
    (width : Nat) : List Cell :=
  if d then
    if x + 1 = width then overwriteAt row x (Cell.char (" ") false st)
    else
      let row1 := overwriteAt row x (Cell.char t true st)
      let row2 :=
        if isDoubleAt row1 (x + 1) then row1.set (x + 2) Cell.blank
        else row1
      row2.set (x + 1) Cell.continuation
  else overwriteAt row x (Cell.char t false st)

/-- Modelled from the spec: the virtual backend writes the text at its
cursor position with its current style, then advances the cursor
clamped to the last column (section 4.4 step 1).  A write outside the
grid does nothing; the differ never emits one. -/
def dummyWrite (isWide : String → Bool) (t : String) (D : DummyState) : DummyState :=
  let x := D.cursorPos.x
  let y := D.cursorPos.y
  let d := isWide t
  if x < D.width ∧ y < D.rows.length then
    { D with
      rows := D.rows.set y (writeGlyphRow ((D.rows.get? y).getD []) x t d D.style D.width)
      cursorPos := ⟨min (x + (if d then 2 else 1)) (D.width - 1), y⟩ }
  else D

/-- Modelled from the spec: one backend operation applied to the
virtual backend state. -/
def applyOp (isWide : String → Bool) (D : DummyState) : Operation → DummyState
  | Operation.setForeground c => { D with style := { D.style with foreground := c } }
  | Operation.setBackground c => { D with style := { D.style with background := c } }
  | Operation.setIntensity i =>
    { D with style := { D.style with attributes := { D.style.attributes with intensity := i } } }
  | Operation.setItalic b =>
    { D with style := { D.style with attributes := { D.style.attributes with italic := b } } }
  | Operation.setUnderlined b =>
    { D with style := { D.style with attributes := { D.style.attributes with underlined := b } } }
  | Operation.setBlinking b =>
    { D with style := { D.style with attributes := { D.style.attributes with blinking := b } } }
  | Operation.setCrossedOut b =>
    { D with style := { D.style with attributes := { D.style.attributes with crossed_out := b } } }
  | Operation.setCursorPos p => { D with cursorPos := p }
  | Operation.write t => dummyWrite isWide t D
  | Operation.showCursor => { D with cursorVisible := true }
  | Operation.hideCursor => { D with cursorVisible := false }
  | Operation.setCursorShape sh => { D with cursorShape := sh }
  | Operation.setCursorBlinking b => { D with cursorBlinking := b }

/-- Apply a stream of backend operations in order. -/
def applyOps (isWide : String → Bool) (ops : List Operation) (D : DummyState) : DummyState :=
  ops.foldl (applyOp isWide) D

/-- The virtual backend initialized from the old buffer, with the held
style and tracked cursor position the differ starts from. -/
def dummyInit (A : Buffer) (s : DiffState) : DummyState :=
  { width := A.grid.width
    rows := A.grid.rows
    cursorPos := s.cursorPos
    style := s.style
    cursorVisible := false
    cursorShape := CursorShape.block
    cursorBlinking := false }

/-! ### Well-formedness of rows and grids (spec section 3 invariants) -/

/-- Whether the stored double flag of a cell agrees with the width
function. -/
def cellWideOk (isWide : String → Bool) : Cell → Bool
  | Cell.char c d _ => isWide c == d
  | Cell.continuation => true

/-- The row invariants of spec section 3, stated decidably: the row has
the grid width, a double-wide glyph cell is always followed by a
continuation cell (hence never sits in the rightmost column), and a
continuation cell is always preceded by a double-wide glyph cell. -/
def rowWF (w : Nat) (r : List Cell) : Prop :=
  r.length = w
    ∧ (∀ j, j < w → cellDouble (r.getD j Cell.blank) = true →
        r.get? (j + 1) = some Cell.continuation)
    ∧ (∀ j, j < w → cellCont (r.getD j Cell.blank) = true →
        1 ≤ j ∧ cellDouble (r.getD (j - 1) Cell.blank) = true)

instance (w : Nat) (r : List Cell) : Decidable (rowWF w r) := by
  unfold rowWF; infer_instance

/-- Every stored double flag of the row agrees with the width function:
the flag is set exactly for contents of display width two. -/
def wideRow (isWide : String → Bool) (r : List Cell) : Prop :=
  ∀ j, j < r.length → cellWideOk isWide (r.getD j Cell.blank) = true

instance (isWide : String → Bool) (r : List Cell) : Decidable (wideRow isWide r) := by
  unfold wideRow; infer_instance

/-- Grid well-formedness: every row satisfies the row invariants. -/
def gridWF (g : Grid) : Prop :=
  ∀ r ∈ g.rows, rowWF g.width r

instance (g : Grid) : Decidable (gridWF g) := by
  unfold gridWF; infer_instance

/-- Every double flag stored in the grid agrees with the width function. -/
def wideGrid (isWide : String → Bool) (g : Grid) : Prop :=
  ∀ r ∈ g.rows, wideRow isWide r

instance (isWide : String → Bool) (g : Grid) : Decidable (wideGrid isWide g) := by
  unfold wideGrid; infer_instance

/-- The invariant tying the virtual backend row to the old and new rows
while the differ walks column x: columns before x already show the new
row; columns after x still show the old row, except that the cleanup of
a narrow write over a double-wide glyph may have blanked a cell whose
old value was a continuation (and whose new value is not); at x itself
the old value, such a blank, or, when the new cell is a continuation,
the continuation the preceding double-wide write laid down. -/
def RowInv (o n r : List Cell) (x : Nat) : Prop :=
  (∀ j, j < x → r.get? j = n.get? j)
    ∧ (∀ j, x ≤ j →
        r.get? j = o.get? j
          ∨ (r.get? j = some Cell.blank ∧ o.get? j = some Cell.continuation
              ∧ n.get? j ≠ some Cell.continuation)
          ∨ (j = x ∧ n.get? x = some Cell.continuation))
    ∧ (n.get? x = some Cell.continuation → r.get? x = some Cell.continuation)

/-! ### Input events and the draw/event loop of Terminal::draw -/

/-- Embeds MouseButton. -/
inductive MouseButton
  | left | middle | right
deriving DecidableEq

/-- Embeds Modifiers (the input module is not part of the snapshot;
modelled from the spec as a set of modifier flags). -/
structure Modifiers where
  shift : Bool
  control : Bool
  alt : Bool
deriving DecidableEq

/-- Embeds KeyPress opaquely: the loop never inspects it (the input
module is not part of the snapshot; a code stands for the key). -/
structure KeyPress where
  code : Nat
deriving DecidableEq

/-- Embeds TerminalMouseKind of backend/mod.rs: the raw mouse event
kinds a backend reports. -/
inductive TerminalMouseKind
  | press (b : MouseButton)
  | release
  | move
  | scrollDown
  | scrollUp
deriving DecidableEq

/-- Embeds TerminalMouse of backend/mod.rs. -/
structure TerminalMouse where
  kind : TerminalMouseKind
  at_ : Vec2 Nat
  modifiers : Modifiers
deriving DecidableEq

/-- Embeds TerminalEvent of backend/mod.rs. -/
inductive TerminalEvent
  | key (k : KeyPress)
  | mouse (m : TerminalMouse)
  | resize (size : Vec2 Nat)
deriving DecidableEq

/-- Embeds the synthetic MouseKind the controller delivers to elements. -/
inductive MouseKind
  | press (b : MouseButton)
  | release (b : MouseButton)
  | drag (b : MouseButton)
  | move
  | scrollDown
  | scrollUp
deriving DecidableEq

/-- Embeds Mouse: the synthetic mouse input delivered to elements. -/
structure Mouse where
  kind : MouseKind
  at_ : Vec2 Nat
  size : Vec2 Nat
  modifiers : Modifiers
deriving DecidableEq

/-- Embeds Input: a key press or a synthetic mouse input. -/
inductive Input
  | key (k : KeyPress)
  | mouse (m : Mouse)
deriving DecidableEq

/-- Embeds the mouse match inside Terminal::draw (terminal.rs lines
143-163): from the held button and a raw kind, the synthetic kind to
surface (none means the event is dropped) and the new held button. -/
def mouseStep (held : Option MouseButton) :
    TerminalMouseKind → Option MouseKind × Option MouseButton
  | TerminalMouseKind.press b => (some (MouseKind.press b), some b)
  | TerminalMouseKind.release =>
    match held with
    | some b => (some (MouseKind.release b), none)
    | none => (none, none)
  | TerminalMouseKind.move =>
    match held with
    | some b => (some (MouseKind.drag b), held)
    | none => (some MouseKind.move, held)
  | TerminalMouseKind.scrollUp => (some MouseKind.scrollUp, held)
  | TerminalMouseKind.scrollDown => (some MouseKind.scrollDown, held)

/-- The synthetic kinds surfaced for a whole raw sequence, one output
per raw event (none for a dropped event). -/
def synthKinds (held : Option MouseButton) : List TerminalMouseKind → List (Option MouseKind)
  | [] => []
  | k :: ks =>
    let p := mouseStep held k
    p.1 :: synthKinds p.2 ks

/-- Whether a raw kind is a press or a release, the two kinds that
change which button is held. -/
def changesHeld : TerminalMouseKind → Bool
  | TerminalMouseKind.press _ => true
  | TerminalMouseKind.release => true
  | _ => false

/-- The specification notion of the held button: scan the raw prefix
from its end for the most recent press or release; a press whose button
no later release consumed is held, a release means nothing is held, and
if neither occurs the initial held button is still in force. -/
def heldSpec (init : Option MouseButton) (pre : List TerminalMouseKind) :
    Option MouseButton :=
  match pre.reverse.find? changesHeld with
  | some (TerminalMouseKind.press b) => some b
  | some _ => none
  | none => init

/-- The held button after a raw prefix, computed left to right: a press
stores its button, a release clears it, move and scroll leave it. -/
def heldAfter (init : Option MouseButton) : List TerminalMouseKind → Option MouseButton
  | [] => init
  | k :: ks =>
    heldAfter
      (match k with
       | TerminalMouseKind.press b => some b
       | TerminalMouseKind.release => none
       | _ => init) ks

/-- The mutable state of Terminal::draw that the event loop reads: the
current buffer size, the held mouse button and the tracked cursor
position. -/
structure LoopState where
  size : Vec2 Nat
  held : Option MouseButton
  cursorPos : Vec2 Nat
deriving DecidableEq

/-- Observable actions of one Terminal::draw call: a call of
element.draw, a call of element.handle with the surfaced input, the
returned event list, or an arithmetic panic. -/
inductive TraceItem (E : Type)
  | draw
  | handle (i : Input)
  | ret (evs : List E)
  | panic
deriving DecidableEq

/-- Embeds the cursor clamp of the Resize arm (terminal.rs lines
176-177): min with size minus one in each axis, with checked u16
subtraction, so a zero extent underflows. -/
def resizeClamp (size cursorPos : Vec2 Nat) : Option (Vec2 Nat) :=
  match u16subCk size.x 1, u16subCk size.y 1 with
  | some mx, some my => some ⟨min cursorPos.x mx, min cursorPos.y my⟩
  | _, _ => none

/-- Embeds the event inner loop of Terminal::draw: await an event,
synthesize the input, dispatch it to the element, return when the
element emitted events, redraw on a real resize and ignore a resize to
the current size.  The script is the list of events the backend will
report; an exhausted script is the loop parked on the awaited read. -/
def innerLoop {E : Type} (handle : Input → List E) :
    LoopState → List TerminalEvent → List (TraceItem E)
  | _, [] => []
  | st, ev :: rest =>
    match ev with
    | TerminalEvent.key k =>
      let inp := Input.key k
      let evs := handle inp
      TraceItem.handle inp ::
        (match evs with
         | [] => innerLoop handle st rest
         | _ => [TraceItem.ret evs])
    | TerminalEvent.mouse m =>
      let p := mouseStep st.held m.kind
      match p.1 with
      | none => innerLoop handle { st with held := p.2 } rest
      | some kind =>
        let inp := Input.mouse ⟨kind, m.at_, st.size, m.modifiers⟩
        let evs := handle inp
        TraceItem.handle inp ::
          (match evs with
           | [] => innerLoop handle { st with held := p.2 } rest
           | _ => [TraceItem.ret evs])
    | TerminalEvent.resize sz =>
      if sz = st.size then innerLoop handle st rest
      else
        match resizeClamp sz st.cursorPos with
        | none => [TraceItem.panic]
        | some cp =>
          TraceItem.draw :: innerLoop handle { st with size := sz, cursorPos := cp } rest

/-- One Terminal::draw call: draw the element, then run the event inner
loop over the scripted backend events. -/
def drawLoop {E : Type} (handle : Input → List E) (st : LoopState)
    (script : List TerminalEvent) : List (TraceItem E) :=
  TraceItem.draw :: innerLoop handle st script

/-- Helper for counting element.handle calls between consecutive
element.draw calls in a trace: cur is the count of handles since the
last draw (none before the first draw), best the maximum over segments
already closed by a later draw. -/
def maxHandlesAux {E : Type} : List (TraceItem E) → Option Nat → Nat → Nat
  | [], _, best => best
  | TraceItem.draw :: t, none, best => maxHandlesAux t (some 0) best
  | TraceItem.draw :: t, some c, best => maxHandlesAux t (some 0) (max best c)
  | TraceItem.handle _ :: t, some c, best => maxHandlesAux t (some (c + 1)) best
  | TraceItem.handle _ :: t, none, best => maxHandlesAux t none best
  | _ :: t, cur, best => maxHandlesAux t cur best

/-- The largest number of element.handle calls strictly between two
successive element.draw calls of a trace. -/
def maxHandlesBetweenDraws {E : Type} (t : List (TraceItem E)) : Nat :=
  maxHandlesAux t none 0

/-! ### Title reconciliation (terminal.rs lines 108-129) -/

/-- The hard-coded fallback title pushed when the element streams an
empty title. -/
def defaultTitle : String := "Toon App"

/-- Embeds the title update of Terminal::draw: the streamed title is
compared byte for byte with the cached one; when the cache is nonempty
and they agree nothing happens, otherwise the new title (or the
fallback when it is empty) is set on the backend and cached.  Returns
whether set_title was called and the new cache. -/
def updateTitle (cached streamed : String) : Bool × String :=
  if cached ≠ "" ∧ streamed = cached then (false, cached)
  else
    let t := if streamed = "" then defaultTitle else streamed
    (true, t)

/-! ### Componentwise Vec2 arithmetic (vec2.rs, the vec2_arith macro) -/

/-- Embeds the componentwise scheme of the vec2_arith macro: the
operator of the component type applied to each component. -/
def vec2Map2 {α β : Type} (f : α → α → β) (a b : Vec2 α) : Vec2 β :=
  ⟨f a.x b.x, f a.y b.y⟩

/-- Vec2 addition at component type u16: componentwise u16 addition,
which is checked, not saturating. -/
def vec2AddU16 (a b : Vec2 Nat) : Option (Vec2 Nat) :=
  match u16addCk a.x b.x, u16addCk a.y b.y with
  | some x, some y => some ⟨x, y⟩
  | _, _ => none

/-- Vec2 subtraction at component type u16: componentwise u16
subtraction, which is checked, not saturating. -/
def vec2SubU16 (a b : Vec2 Nat) : Option (Vec2 Nat) :=
  match u16subCk a.x b.x, u16subCk a.y b.y with
  | some x, some y => some ⟨x, y⟩
  | _, _ => none

/-- Componentwise saturating subtraction, what the claim says the
operators do (Nat subtraction saturates at zero). -/
def vec2SatSub (a b : Vec2 Nat) : Vec2 Nat :=
  vec2Map2 (fun u v => u - v) a b

/-! ### The border filter (elements/filter/border.rs) -/

/-- The horizontal border thickness: two columns with padding, one
without. -/
def xborder (padding : Bool) : Nat := if padding then 2 else 1

/-- Embeds the offset of the area the border draw gives its child
(border.rs line 197). -/
def borderChildOffset (padding : Bool) : Vec2 Nat :=
  ⟨if padding then 2 else 1, 1⟩

/-- Embeds the size of the area the border draw gives its child
(border.rs lines 198-203): saturating subtraction of four (with
padding) or two columns and two rows. -/
def borderChildSize (padding : Bool) (outputSize : Vec2 Nat) : Vec2 Nat :=
  ⟨outputSize.x - (if padding then 4 else 2), outputSize.y - 2⟩

/-- Embeds the mouse arm of the border handle (border.rs lines
359-375): reject events on or beyond the inner region boundary, then
translate the position by the border thickness and shrink the size with
checked subtraction. -/
def borderHandleMouse (padding : Bool) (m : Mouse) : Option Mouse :=
  let xb := xborder padding
  if m.size.x ≤ u16satAdd m.at_.x xb ∨ m.size.y ≤ u16satAdd m.at_.y 1 then none
  else
    match u16subCk m.at_.x xb, u16subCk m.at_.y 1,
        u16subCk m.size.x (if padding then 4 else 2), u16subCk m.size.y 2 with
    | some ax, some ay, some sx, some sy =>
      some { m with at_ := ⟨ax, ay⟩, size := ⟨sx, sy⟩ }
    | _, _, _, _ => none

/-- Embeds the border handle (border.rs lines 351-380): key inputs pass
unchanged, mouse inputs are translated or rejected; the child receives
the input exactly when this returns some. -/
def borderHandle (padding : Bool) : Input → Option Input
  | Input.key k => some (Input.key k)
  | Input.mouse m => (borderHandleMouse padding m).map Input.mouse

/-! ### Terminal construction and the process-wide TERMINAL_EXISTS flag
(terminal.rs lines 60-96 and 345-353) -/

/-- The observable outcome of Terminal::new. -/
inductive NewOutcome
  | panicked
  | errored
  | ok
deriving DecidableEq

/-- Embeds Terminal::new acting on the TERMINAL_EXISTS flag: a
non-dummy construction first swaps the flag to true and panics if it
already was; afterwards stdio capture, backend bind or the initial
backend setup may fail, returning an error without touching the flag
again.  Returns the outcome and the flag value after the call. -/
def terminalNew (isDummy stdioFails bindFails setupFails flag : Bool) :
    NewOutcome × Bool :=
  if !isDummy && flag then (NewOutcome.panicked, true)
  else
    let flag2 := if isDummy then flag else true
    if !isDummy && stdioFails then (NewOutcome.errored, flag2)
    else if bindFails then (NewOutcome.errored, flag2)
    else if setupFails then (NewOutcome.errored, flag2)
    else (NewOutcome.ok, flag2)

/-- Embeds Drop for Terminal: clears the flag for a non-dummy backend.
It only runs for a successfully constructed Terminal. -/
def terminalDrop (isDummy : Bool) (flag : Bool) : Bool :=
  if isDummy then flag else false

/-! ### Remaining helpers for the claims -/

/-- The empty grid a resize to size zero leaves behind. -/
def emptyGrid : Grid := ⟨0, []⟩

/-- The empty buffer over the empty grid. -/
def emptyBuffer : Buffer := ⟨emptyGrid, none⟩

/-- Modelled from the spec: write_char of the Output abstraction
(section 4.1) on a grid: lays the glyph into the row within bounds and
does nothing when the position is out of bounds. -/
def outputWriteChar (isWide : String → Bool) (g : Grid) (pos : Vec2 Nat) (c : String)
    (st : Style) : Grid :=
  if pos.x < g.width ∧ pos.y < g.rows.length then
    { g with
      rows := g.rows.set pos.y
        (writeGlyphRow ((g.rows.get? pos.y).getD []) pos.x c (isWide c) st g.width) }
  else g

/-- Strict row-major order on positions: earlier row, or same row and
earlier column. -/
def rmLt (p q : Vec2 Nat) : Prop :=
  p.y < q.y ∨ (p.y = q.y ∧ p.x < q.x)

instance (p q : Vec2 Nat) : Decidable (rmLt p q) := by
  unfold rmLt; infer_instance

/-- Whether an operation sets a style field. -/
def styleOp : Operation → Prop
  | Operation.setForeground _ => True
  | Operation.setBackground _ => True
  | Operation.setIntensity _ => True
  | Operation.setItalic _ => True
  | Operation.setUnderlined _ => True
  | Operation.setBlinking _ => True
  | Operation.setCrossedOut _ => True
  | _ => False

instance (op : Operation) : Decidable (styleOp op) := by
  unfold styleOp; cases op <;> infer_instance

/-- Whether an operation only touches the cursor (visibility, shape,
blinking or position), never a cell. -/
def cursorOnlyOp : Operation → Prop
  | Operation.setCursorPos _ => True
  | Operation.showCursor => True
  | Operation.hideCursor => True
  | Operation.setCursorShape _ => True
  | Operation.setCursorBlinking _ => True
  | _ => False

instance (op : Operation) : Decidable (cursorOnlyOp op) := by
  unfold cursorOnlyOp; cases op <;> infer_instance

/-- The per-cell emission of the differ regrouped as chunks: for every
visited cell that produces output, the position, the state the chunk
starts from, and the emitted operations. -/
def diffRowChunksAux (width y : Nat) (o n : List Cell) :
    Nat → Nat → DiffState → List (Vec2 Nat × DiffState × List Operation) × DiffState
  | _, 0, s => ([], s)
  | x, fuel + 1, s =>
    match o.get? x, n.get? x with
    | some oc, some nc =>
      let p1 := diffCell width ⟨x, y⟩ oc nc s
      let p2 := diffRowChunksAux width y o n (x + 1) fuel p1.2
      ((if p1.1 = [] then p2.1 else (⟨x, y⟩, s, p1.1) :: p2.1), p2.2)
    | _, _ => ([], s)

/-- The chunk decomposition across the rows. -/
def diffRowsChunks (width : Nat) :
    Nat → List (List Cell) → List (List Cell) → DiffState →
      List (Vec2 Nat × DiffState × List Operation) × DiffState
  | _, [], _, s => ([], s)
  | _, _ :: _, [], s => ([], s)
  | y, o :: os, n :: ns, s =>
    let p1 := diffRowChunksAux width y o n 0 (min o.length n.length) s
    let p2 := diffRowsChunks width (y + 1) os ns p1.2
    (p1.1 ++ p2.1, p2.2)

/-- The chunk decomposition of a whole diff. -/
def diffChunks (old new : Buffer) (s : DiffState) :
    List (Vec2 Nat × DiffState × List Operation) :=
  (diffRowsChunks new.grid.width 0 old.grid.rows new.grid.rows s).1

/-- The positions of the changed cells of one row whose new value is a
glyph cell, in ascending column order. -/
def changedGlyphAux (y : Nat) (o n : List Cell) : Nat → Nat → List (Vec2 Nat)
  | _, 0 => []
  | x, fuel + 1 =>
    match o.get? x, n.get? x with
    | some oc, some nc =>
      (if nc = oc then []
       else
         match nc with
         | Cell.continuation => []
         | Cell.char _ _ _ => [(⟨x, y⟩ : Vec2 Nat)]) ++ changedGlyphAux y o n (x + 1) fuel
    | _, _ => []

/-- The positions of the changed glyph cells of a buffer pair in
row-major order. -/
def changedGlyphPositions (width : Nat) :
    Nat → List (List Cell) → List (List Cell) → List (Vec2 Nat)
  | _, [], _ => []
  | _, _ :: _, [] => []
  | y, o :: os, n :: ns =>
    changedGlyphAux y o n 0 (min o.length n.length) ++ changedGlyphPositions width (y + 1) os ns

/-- The number of write operations in a stream. -/
def countWrites (ops : List Operation) : Nat :=
  ops.countP fun op =>
    match op with
    | Operation.write _ => true
    | _ => false

/-- The number of cell positions where the two buffers differ
(over the zip of their rows, as the differ traverses them). -/
def changedCellCount (old new : Buffer) : Nat :=
  (old.grid.rows.zip new.grid.rows).foldl
    (fun acc p => acc + (p.1.zip p.2).countP fun q => !(q.1 == q.2)) 0

/-! ## Theorems -/

/-- Diffing a cell against itself emits nothing and keeps the state. -/
theorem diffCell_self (width : Nat) (pos : Vec2 Nat) (c : Cell) (s : DiffState) :
    diffCell width pos c c s = ([], s) := by
  simp [diffCell]

/-- Diffing a row against itself emits nothing and keeps the state. -/
theorem diffRowAux_self (width y : Nat) (o : List Cell) :
    ∀ fuel x s, diffRowAux width y o o x fuel s = ([], s) := by
  intro fuel
  induction fuel with
  | zero => intro x s; rfl
  | succ m ih =>
    intro x s
    unfold diffRowAux
    cases h : o.get? x with
    | none => simp [h]
    | some c => simp [h, diffCell_self, ih]

/-- Diffing a list of rows against itself emits nothing. -/
theorem diffRows_self (width : Nat) :
    ∀ (l : List (List Cell)) (y : Nat) (s : DiffState), diffRows width y l l s = ([], s) := by
  intro l
  induction l with
  | nil => intro y s; rfl
  | cons r t ih =>
    intro y s
    unfold diffRows diffRow
    simp [diffRowAux_self, ih]

/-- Cursor reconciliation between identical cursors emits at most a
cursor move, exactly when the tracked position differs from the cursor
position. -/
theorem cursorRecon_self (c : Option Cursor) (pos : Vec2 Nat) :
    cursorRecon c c pos =
      (match c with
       | some nc => if pos = nc.pos then [] else [Operation.setCursorPos nc.pos]
       | none => []) := by
  cases c with
  | none => rfl
  | some nc => simp [cursorRecon]

/-- C2, counterexample: with old buffer equal to new buffer but a
tracked cursor position away from the buffer cursor, Terminal::diff
emits a set_cursor_pos in addition to the background reset, so the
claim that only the background reset is emitted is false. -/
theorem diff_self_not_only_background_reset :
    ¬ ((diff
        ⟨⟨1, [[Cell.blank]]⟩, some ⟨⟨0, 0⟩, CursorShape.block, false⟩⟩
        ⟨⟨1, [[Cell.blank]]⟩, some ⟨⟨0, 0⟩, CursorShape.block, false⟩⟩
        ⟨Style.default, ⟨1, 0⟩⟩).1 =
      [Operation.setBackground Color.default]) := by
  decide

/-- C2, amended: running Terminal::diff from a buffer to itself emits
the unconditional background reset and, when the buffer has a cursor
whose position differs from the tracked cursor position, one
set_cursor_pos to it; never any write, style change or other cursor
operation. -/
theorem diff_self_ops (A : Buffer) (s : DiffState) :
    (diff A A s).1 =
      Operation.setBackground Color.default ::
        (match A.cursor with
         | some c => if s.cursorPos = c.pos then [] else [Operation.setCursorPos c.pos]
         | none => []) := by
  unfold diff
  simp [diffRows_self, cursorRecon_self]

/-- C4, counterexample: the cursor clamp of the Resize arm underflows
at size zero (a panic under debug assertions), and the differ over the
empty buffers does not produce an empty op stream, contrary to the
claim. -/
theorem resize_zero_claim_false :
    resizeClamp ⟨0, 0⟩ ⟨0, 0⟩ = none
    ∧ ¬ ((diff emptyBuffer emptyBuffer ⟨Style.default, ⟨0, 0⟩⟩).1 = []) := by
  decide

/-- C4, amended: on a Resize to size zero the cursor clamp computes min
against size minus one, whose u16 subtraction underflows (panicking
under debug assertions instead of clamping); the differ over the empty
grids emits exactly the unconditional background reset rather than an
empty stream; and no write on the empty grid succeeds. -/
theorem resize_zero_behavior (p : Vec2 Nat) (s : DiffState) :
    resizeClamp ⟨0, 0⟩ p = none
    ∧ (diff emptyBuffer emptyBuffer s).1 = [Operation.setBackground Color.default]
    ∧ ∀ (isWide : String → Bool) (pos : Vec2 Nat) (c : String) (st : Style),
        outputWriteChar isWide emptyGrid pos c st = emptyGrid := by
  refine ⟨rfl, ?_, ?_⟩
  · simp [diff, diffRows, cursorRecon, emptyBuffer, emptyGrid]
  · intro isWide pos c st
    simp [outputWriteChar, emptyGrid]

/-- C6, counterexample: when the element streams an empty title, the
value set on the backend and cached is the hard-coded fallback, which
is not the string the claim names. -/
theorem title_fallback_not_App :
    (updateTitle ("x") ("")).1 = true ∧ ¬ (updateTitle ("x") ("")).2 = ("App") := by
  decide

/-- C6, amended: the streamed title is compared byte for byte with the
cache; set_title is called exactly when the cache is empty or they
differ; when called, the value set and cached is the streamed title, or
the fallback title (the string Toon App) when the streamed title is
empty; when not called the cache is unchanged. -/
theorem title_reconciliation (cached streamed : String) :
    ((updateTitle cached streamed).1 = true ↔ cached = "" ∨ streamed ≠ cached)
    ∧ ((updateTitle cached streamed).1 = true →
        (updateTitle cached streamed).2 = (if streamed = "" then defaultTitle else streamed))
    ∧ ((updateTitle cached streamed).1 = false →
        (updateTitle cached streamed).2 = cached) := by
  unfold updateTitle
  by_cases h : cached ≠ "" ∧ streamed = cached
  · simp only [if_pos h]
    refine ⟨?_, ?_, ?_⟩
    · simp; tauto
    · simp
    · simp
  · simp only [if_neg h]
    push_neg at h
    refine ⟨?_, ?_, ?_⟩
    · simp
      by_cases hc : cached = ""
      · exact Or.inl hc
      · exact Or.inr (h hc)
    · simp
    · simp

/-- C8, counterexample: Vec2 subtraction at u16, which delegates to the
component subtraction, does not saturate: at ((0,0), (1,0)) it fails
(an overflow panic under debug assertions) instead of producing the
saturated difference. -/
theorem vec2_sub_not_saturating :
    ¬ vec2SubU16 ⟨0, 0⟩ ⟨1, 0⟩ = some (vec2SatSub ⟨0, 0⟩ ⟨1, 0⟩) := by
  decide

/-- C8, amended: the componentwise Vec2 operators delegate to the
component type arithmetic, which for u16 is checked rather than
saturating: subtraction fails exactly when a component underflows and
agrees with saturating subtraction when it succeeds, and addition fails
exactly when a component overflows and is the exact sum when it
succeeds. -/
theorem vec2_arith_checked_componentwise (a b : Vec2 Nat) :
    (∀ c, vec2SubU16 a b = some c → c = vec2SatSub a b)
    ∧ (vec2SubU16 a b = none ↔ a.x < b.x ∨ a.y < b.y)
    ∧ (∀ c, vec2AddU16 a b = some c → c = vec2Map2 (fun u v => u + v) a b)
    ∧ (vec2AddU16 a b = none ↔ u16Max < a.x + b.x ∨ u16Max < a.y + b.y) := by
  obtain ⟨ax, ay⟩ := a
  obtain ⟨bx, by'⟩ := b
  by_cases hx : bx ≤ ax <;> by_cases hy : by' ≤ ay <;>
    by_cases hx2 : ax + bx ≤ u16Max <;> by_cases hy2 : ay + by' ≤ u16Max <;>
      simp [vec2SubU16, vec2AddU16, vec2SatSub, vec2Map2, u16subCk, u16addCk, hx, hy, hx2, hy2] <;>
        omega

/-- C10: when Terminal::new with a non-dummy backend sets the
TERMINAL_EXISTS flag and then fails (stdio capture, bind or initial
setup), it returns the error with the flag still set, and every
subsequent non-dummy Terminal::new panics, whatever fails or succeeds
in it. -/
theorem terminal_exists_flag_leak (sf bf uf : Bool)
    (h : sf = true ∨ bf = true ∨ uf = true) :
    (terminalNew false sf bf uf false).1 = NewOutcome.errored
    ∧ (terminalNew false sf bf uf false).2 = true
    ∧ ∀ sf2 bf2 uf2 : Bool,
        (terminalNew false sf2 bf2 uf2 (terminalNew false sf bf uf false).2).1 =
          NewOutcome.panicked := by
  revert h
  cases sf <;> cases bf <;> cases uf <;> decide

/-- The held button the mouse match of Terminal::draw leaves behind: a
press stores its button, a release always clears, everything else keeps
the button. -/
theorem mouseStep_snd (h : Option MouseButton) (k : TerminalMouseKind) :
    (mouseStep h k).2 =
      (match k with
       | TerminalMouseKind.press b => some b
       | TerminalMouseKind.release => none
       | _ => h) := by
  cases k <;> cases h <;> rfl

/-- The right-to-left scan for the most recent unconsumed press agrees
with the left-to-right held-button fold. -/
theorem heldSpec_eq_heldAfter (pre : List TerminalMouseKind) :
    ∀ init, heldSpec init pre = heldAfter init pre := by
  induction pre with
  | nil => intro init; rfl
  | cons k ks ih =>
    intro init
    unfold heldSpec heldAfter
    rw [List.reverse_cons, List.find?_append]
    rw [show heldAfter
        (match k with
         | TerminalMouseKind.press b => some b
         | TerminalMouseKind.release => none
         | _ => init) ks =
      heldSpec
        (match k with
         | TerminalMouseKind.press b => some b
         | TerminalMouseKind.release => none
         | _ => init) ks from (ih _).symm]
    unfold heldSpec
    cases hf : ks.reverse.find? changesHeld with
    | some r => cases r <;> simp [Option.or]
    | none => cases k <;> simp [Option.or, changesHeld, List.find?]

/-- The output the controller surfaces for the event after a raw prefix
is the mouse match applied to the held button the prefix left. -/
theorem synthKinds_get (k : TerminalMouseKind) (post : List TerminalMouseKind) :
    ∀ (pre : List TerminalMouseKind) (init : Option MouseButton),
      (synthKinds init (pre ++ k :: post)).get? pre.length =
        some (mouseStep (heldAfter init pre) k).1 := by
  intro pre
  induction pre with
  | nil => intro init; rfl
  | cons p ps ih =>
    intro init
    show (synthKinds init (p :: (ps ++ k :: post))).get? (ps.length + 1) = _
    unfold synthKinds
    rw [List.get?_cons_succ, ih]
    rw [show heldAfter init (p :: ps) = heldAfter (mouseStep init p).2 ps from by
      rw [mouseStep_snd]; rfl]

/-- Claim C3: for every raw mouse sequence, a raw Release surfaces as
synthetic Release of the most recent unconsumed press and is dropped
when there is none, a Move surfaces as Drag of the held button and as
Move when none is held, and the event loop delivers nothing to the
element for a dropped release. -/
theorem release_surfaces_most_recent_unconsumed_press
    (init : Option MouseButton) (ks pre post : List TerminalMouseKind)
    (k : TerminalMouseKind) (hks : ks = pre ++ k :: post) :
    (k = TerminalMouseKind.release →
      (synthKinds init ks).get? pre.length =
        some (match heldSpec init pre with
              | some b => some (MouseKind.release b)
              | none => none))
    ∧ (k = TerminalMouseKind.move →
      (synthKinds init ks).get? pre.length =
        some (some (match heldSpec init pre with
                    | some b => MouseKind.drag b
                    | none => MouseKind.move)))
    ∧ ∀ (E : Type) (handle : Input → List E) (st : LoopState)
        (rest : List TerminalEvent) (m : TerminalMouse),
        m.kind = TerminalMouseKind.release → st.held = none →
        innerLoop handle st (TerminalEvent.mouse m :: rest) = innerLoop handle st rest := by
  subst hks
  refine ⟨?_, ?_, ?_⟩
  · intro hk
    subst hk
    rw [synthKinds_get, heldSpec_eq_heldAfter]
    cases heldAfter init pre <;> rfl
  · intro hk
    subst hk
    rw [synthKinds_get, heldSpec_eq_heldAfter]
    cases heldAfter init pre <;> rfl
  · intro E handle st rest m hm hh
    obtain ⟨sz, hd, cp⟩ := st
    obtain ⟨mk, mat, mmod⟩ := m
    simp only at hm hh
    subst hm hh
    rfl

/-- Witness for the release theorem: press left then move, then a
release surfaces Release left. -/
theorem release_surfaces_witness :
    (([TerminalMouseKind.press MouseButton.left, TerminalMouseKind.move,
       TerminalMouseKind.release] : List TerminalMouseKind) =
      [TerminalMouseKind.press MouseButton.left, TerminalMouseKind.move] ++
        TerminalMouseKind.release :: [])
    ∧ ((TerminalMouseKind.release = TerminalMouseKind.release →
        (synthKinds none
          [TerminalMouseKind.press MouseButton.left, TerminalMouseKind.move,
           TerminalMouseKind.release]).get?
            ([TerminalMouseKind.press MouseButton.left, TerminalMouseKind.move] :
              List TerminalMouseKind).length =
          some (match heldSpec none
                  [TerminalMouseKind.press MouseButton.left, TerminalMouseKind.move] with
                | some b => some (MouseKind.release b)
                | none => none))
      ∧ (TerminalMouseKind.release = TerminalMouseKind.move →
        (synthKinds none
          [TerminalMouseKind.press MouseButton.left, TerminalMouseKind.move,
           TerminalMouseKind.release]).get?
            ([TerminalMouseKind.press MouseButton.left, TerminalMouseKind.move] :
              List TerminalMouseKind).length =
          some (some (match heldSpec none
                        [TerminalMouseKind.press MouseButton.left, TerminalMouseKind.move] with
                      | some b => MouseKind.drag b
                      | none => MouseKind.move)))
      ∧ ∀ (E : Type) (handle : Input → List E) (st : LoopState)
          (rest : List TerminalEvent) (m : TerminalMouse),
          m.kind = TerminalMouseKind.release → st.held = none →
          innerLoop handle st (TerminalEvent.mouse m :: rest) = innerLoop handle st rest) :=
  ⟨rfl,
   release_surfaces_most_recent_unconsumed_press none _ _ []
     TerminalMouseKind.release rfl⟩

/-- C7, counterexample: an element that emits no events has handle
called twice between two successive draws (two key inputs followed by a
resize that forces the redraw), so at most one input between two draws
is false. -/
theorem multiple_handles_between_draws :
    ¬ (maxHandlesBetweenDraws
        (drawLoop (fun _ : Input => ([] : List Unit)) ⟨⟨4, 4⟩, none, ⟨0, 0⟩⟩
          [TerminalEvent.key ⟨0⟩, TerminalEvent.key ⟨1⟩,
           TerminalEvent.resize ⟨5, 5⟩]) ≤ 1) := by
  decide

/-- In the event inner loop, a handle call whose event list is nonempty
is the last thing before the call returns those events: nothing follows
it in the trace but the return. -/
theorem innerLoop_handle_ret {E : Type} (handle : Input → List E) :
    ∀ (script : List TerminalEvent) (st : LoopState) (pre : List (TraceItem E)) (i : Input)
      (post : List (TraceItem E)),
      innerLoop handle st script = pre ++ TraceItem.handle i :: post →
      handle i ≠ [] → post = [TraceItem.ret (handle i)] := by
  intro script
  induction script with
  | nil =>
    intro st pre i post h hne
    simp [innerLoop] at h
  | cons ev rest ih =>
    intro st pre i post h hne
    cases ev with
    | key k =>
      simp only [innerLoop] at h
      cases he : handle (Input.key k) with
      | nil =>
        simp only [he] at h
        cases pre with
        | nil =>
          simp only [List.nil_append] at h
          obtain ⟨h1, h2⟩ := List.cons.inj h
          obtain rfl := TraceItem.handle.inj h1
          exact absurd he hne
        | cons q pre2 =>
          simp only [List.cons_append] at h
          obtain ⟨h1, h2⟩ := List.cons.inj h
          exact ih st pre2 i post h2 hne
      | cons e es =>
        simp only [he] at h
        cases pre with
        | nil =>
          simp only [List.nil_append] at h
          obtain ⟨h1, h2⟩ := List.cons.inj h
          obtain rfl := TraceItem.handle.inj h1
          rw [he]
          exact h2.symm
        | cons q pre2 =>
          simp only [List.cons_append] at h
          obtain ⟨h1, h2⟩ := List.cons.inj h
          cases pre2 with
          | nil => simp at h2
          | cons q2 pre3 => simp at h2
    | mouse m =>
      simp only [innerLoop] at h
      cases hk : (mouseStep st.held m.kind).1 with
      | none =>
        rw [hk] at h
        exact ih _ pre i post h hne
      | some kind =>
        rw [hk] at h
        cases he : handle (Input.mouse ⟨kind, m.at_, st.size, m.modifiers⟩) with
        | nil =>
          simp only [he] at h
          cases pre with
          | nil =>
            simp only [List.nil_append] at h
            obtain ⟨h1, h2⟩ := List.cons.inj h
            obtain rfl := TraceItem.handle.inj h1
            exact absurd he hne
          | cons q pre2 =>
            simp only [List.cons_append] at h
            obtain ⟨h1, h2⟩ := List.cons.inj h
            exact ih _ pre2 i post h2 hne
        | cons e es =>
          simp only [he] at h
          cases pre with
          | nil =>
            simp only [List.nil_append] at h
            obtain ⟨h1, h2⟩ := List.cons.inj h
            obtain rfl := TraceItem.handle.inj h1
            rw [he]
            exact h2.symm
          | cons q pre2 =>
            simp only [List.cons_append] at h
            obtain ⟨h1, h2⟩ := List.cons.inj h
            cases pre2 with
            | nil => simp at h2
            | cons q2 pre3 => simp at h2
    | resize sz =>
      simp only [innerLoop] at h
      by_cases hs : sz = st.size
      · rw [if_pos hs] at h
        exact ih st pre i post h hne
      · rw [if_neg hs] at h
        cases hc : resizeClamp sz st.cursorPos with
        | none =>
          rw [hc] at h
          cases pre with
          | nil => simp at h
          | cons q pre2 =>
            simp only [List.cons_append] at h
            obtain ⟨h1, h2⟩ := List.cons.inj h
            cases pre2 with
            | nil => simp at h2
            | cons q2 pre3 => simp at h2
        | some cp =>
          rw [hc] at h
          cases pre with
          | nil => simp at h
          | cons q pre2 =>
            simp only [List.cons_append] at h
            obtain ⟨h1, h2⟩ := List.cons.inj h
            exact ih _ pre2 i post h2 hne

/-- C7, amended: within one Terminal::draw call, handle is called once
for every surfaced input, and several inputs can be handled between two
draws when the element emits no events; when the element does emit
events for an input, the call returns those events at once, so no
further input is read (and the next draw call redraws) first. -/
theorem events_return_before_next_read {E : Type} (handle : Input → List E)
    (st : LoopState) (script : List TerminalEvent) (pre : List (TraceItem E))
    (i : Input) (post : List (TraceItem E))
    (h : drawLoop handle st script = pre ++ TraceItem.handle i :: post)
    (hne : handle i ≠ []) : post = [TraceItem.ret (handle i)] := by
  unfold drawLoop at h
  cases pre with
  | nil =>
    simp only [List.nil_append] at h
    exact absurd (List.cons.inj h).1 (by intro hx; cases hx)
  | cons q pre2 =>
    simp only [List.cons_append] at h
    exact innerLoop_handle_ret handle script st pre2 i post (List.cons.inj h).2 hne

/-- Witness for the return-before-next-read theorem: a single key
input whose handling emits one event. -/
theorem events_return_before_next_read_witness :
    (drawLoop (fun _ : Input => [()]) ⟨⟨4, 4⟩, none, ⟨0, 0⟩⟩
        [TerminalEvent.key ⟨0⟩] =
      [TraceItem.draw] ++
        TraceItem.handle (Input.key ⟨0⟩) :: [TraceItem.ret [()]])
    ∧ ((fun _ : Input => [()]) (Input.key ⟨0⟩) ≠ [])
    ∧ [TraceItem.ret [()]] =
        [TraceItem.ret ((fun _ : Input => [()]) (Input.key ⟨0⟩))] :=
  ⟨by decide, by decide,
   events_return_before_next_read (fun _ : Input => [()]) ⟨⟨4, 4⟩, none, ⟨0, 0⟩⟩
     [TerminalEvent.key ⟨0⟩] [TraceItem.draw] (Input.key ⟨0⟩) [TraceItem.ret [()]]
     (by decide) (by decide)⟩

/-- C9: the border filter draws its child into the area at offset
(xborder, 1) shrunk by (2 times xborder, 2) with xborder two when
padding is on and one otherwise, and its handle forwards a mouse input
to the child exactly when the position lies inside that same inner
region, translated by (-xborder, -1) with the matching size reduction
and the kind and modifiers unchanged. -/
theorem border_draw_handle_consistent (padding : Bool) (m : Mouse)
    (hax : m.at_.x ≤ u16Max) (hay : m.at_.y ≤ u16Max)
    (hsx : m.size.x ≤ u16Max) (hsy : m.size.y ≤ u16Max) :
    borderChildOffset padding = ⟨xborder padding, 1⟩
    ∧ borderChildSize padding m.size =
        ⟨m.size.x - 2 * xborder padding, m.size.y - 2⟩
    ∧ (match borderHandleMouse padding m with
       | some m2 =>
         (xborder padding ≤ m.at_.x
          ∧ m.at_.x < xborder padding + (borderChildSize padding m.size).x
          ∧ 1 ≤ m.at_.y ∧ m.at_.y < 1 + (borderChildSize padding m.size).y)
         ∧ m2.at_ = ⟨m.at_.x - xborder padding, m.at_.y - 1⟩
         ∧ m2.size = borderChildSize padding m.size
         ∧ m2.kind = m.kind ∧ m2.modifiers = m.modifiers
       | none =>
         ¬ (xborder padding ≤ m.at_.x
            ∧ m.at_.x < xborder padding + (borderChildSize padding m.size).x
            ∧ 1 ≤ m.at_.y ∧ m.at_.y < 1 + (borderChildSize padding m.size).y)) := by
  obtain ⟨mk, ⟨ax, ay⟩, ⟨sx, sy⟩, mm⟩ := m
  simp only [u16Max] at hax hay hsx hsy
  cases padding <;>
    · refine ⟨rfl, rfl, ?_⟩
      simp only [borderHandleMouse, xborder, u16satAdd, u16subCk, u16Max,
        borderChildSize, Bool.false_eq_true, if_true, if_false]
      split_ifs <;> simp_all <;> omega

/-- Witness for the border theorem: a padded border over a 6 by 4 area
forwards a click at (2, 1) to the child at (0, 0). -/
theorem border_draw_handle_consistent_witness :
    ((2 : Nat) ≤ u16Max ∧ (1 : Nat) ≤ u16Max ∧ (6 : Nat) ≤ u16Max ∧ (4 : Nat) ≤ u16Max)
    ∧ (borderChildOffset true = ⟨xborder true, 1⟩
       ∧ borderChildSize true ⟨6, 4⟩ = ⟨6 - 2 * xborder true, 4 - 2⟩
       ∧ (match borderHandleMouse true
            ⟨MouseKind.press MouseButton.left, ⟨2, 1⟩, ⟨6, 4⟩, ⟨false, false, false⟩⟩ with
          | some m2 =>
            (xborder true ≤ 2
             ∧ 2 < xborder true + (borderChildSize true ⟨6, 4⟩).x
             ∧ 1 ≤ 1 ∧ 1 < 1 + (borderChildSize true ⟨6, 4⟩).y)
            ∧ m2.at_ = ⟨2 - xborder true, 1 - 1⟩
            ∧ m2.size = borderChildSize true ⟨6, 4⟩
            ∧ m2.kind = MouseKind.press MouseButton.left
            ∧ m2.modifiers = ⟨false, false, false⟩
          | none =>
            ¬ (xborder true ≤ 2
               ∧ 2 < xborder true + (borderChildSize true ⟨6, 4⟩).x
               ∧ 1 ≤ 1 ∧ 1 < 1 + (borderChildSize true ⟨6, 4⟩).y))) :=
  ⟨by decide,
   border_draw_handle_consistent true
     ⟨MouseKind.press MouseButton.left, ⟨2, 1⟩, ⟨6, 4⟩, ⟨false, false, false⟩⟩
     (by decide) (by decide) (by decide) (by decide)⟩

/-- The differ emits nothing for a cell exactly when the new cell
equals the old one or is a continuation cell. -/
theorem diffCell_nil_iff (width : Nat) (pos : Vec2 Nat) (oc nc : Cell) (s : DiffState) :
    (diffCell width pos oc nc s).1 = [] ↔ (nc = oc ∨ nc = Cell.continuation) := by
  unfold diffCell
  by_cases h : nc = oc
  · simp [h]
  · cases nc with
    | continuation => simp [h]
    | char c d st => simp [h]

/-- The flat operation stream of one differ row is the concatenation of
its chunks, and both recursions agree on the final state. -/
theorem diffRowChunksAux_spec (width y : Nat) (o n : List Cell) :
    ∀ fuel x s,
      (diffRowAux width y o n x fuel s).1 =
        ((diffRowChunksAux width y o n x fuel s).1.map (fun e => e.2.2)).flatten
      ∧ (diffRowAux width y o n x fuel s).2 = (diffRowChunksAux width y o n x fuel s).2 := by
  intro fuel
  induction fuel with
  | zero => intro x s; exact ⟨rfl, rfl⟩
  | succ m ih =>
    intro x s
    unfold diffRowAux diffRowChunksAux
    cases ho : o.get? x with
    | none => simp [ho]
    | some oc =>
      cases hn : n.get? x with
      | none => simp [ho, hn]
      | some nc =>
        simp only [ho, hn]
        obtain ⟨ih1, ih2⟩ := ih (x + 1) (diffCell width ⟨x, y⟩ oc nc s).2
        by_cases hz : (diffCell width ⟨x, y⟩ oc nc s).1 = []
        · simp [hz, ih1, ih2]
        · simp [hz, ih1, ih2]

/-- The flat operation stream of the differ cell loops is the
concatenation of the chunks over all rows. -/
theorem diffRowsChunks_spec (width : Nat) :
    ∀ (os ns : List (List Cell)) (y : Nat) (s : DiffState),
      (diffRows width y os ns s).1 =
        ((diffRowsChunks width y os ns s).1.map (fun e => e.2.2)).flatten
      ∧ (diffRows width y os ns s).2 = (diffRowsChunks width y os ns s).2 := by
  intro os
  induction os with
  | nil => intro ns y s; exact ⟨rfl, rfl⟩
  | cons o os2 ih =>
    intro ns y s
    cases ns with
    | nil => exact ⟨rfl, rfl⟩
    | cons n ns2 =>
      unfold diffRows diffRowsChunks diffRow
      obtain ⟨r1, r2⟩ := diffRowChunksAux_spec width y o n (min o.length n.length) 0 s
      obtain ⟨R1, R2⟩ :=
        ih ns2 (y + 1) (diffRowChunksAux width y o n 0 (min o.length n.length) s).2
      simp [r1, r2, R1, R2]

/-- The chunk positions of one row are the changed glyph positions of
that row. -/
theorem diffRowChunksAux_positions (width y : Nat) (o n : List Cell) :
    ∀ fuel x s,
      (diffRowChunksAux width y o n x fuel s).1.map (fun e => e.1) =
        changedGlyphAux y o n x fuel := by
  intro fuel
  induction fuel with
  | zero => intro x s; rfl
  | succ m ih =>
    intro x s
    unfold diffRowChunksAux changedGlyphAux
    cases ho : o.get? x with
    | none => simp [ho]
    | some oc =>
      cases hn : n.get? x with
      | none => simp [ho, hn]
      | some nc =>
        simp only [ho, hn]
        by_cases hz : (diffCell width ⟨x, y⟩ oc nc s).1 = []
        · rcases (diffCell_nil_iff width ⟨x, y⟩ oc nc s).1 hz with h | h
          · subst h
            simp [hz, ih]
          · subst h
            by_cases he : (Cell.continuation : Cell) = oc
            · subst he
              simp [hz, ih]
            · simp [hz, he, ih]
        · have hne : ¬ (nc = oc ∨ nc = Cell.continuation) := fun hor =>
            hz ((diffCell_nil_iff width ⟨x, y⟩ oc nc s).2 hor)
          push_neg at hne
          obtain ⟨hne1, hne2⟩ := hne
          cases nc with
          | continuation => exact absurd rfl hne2
          | char c d st => simp [hz, hne1, ih]

/-- The chunk positions across the rows are the changed glyph
positions. -/
theorem diffRowsChunks_positions (width : Nat) :
    ∀ (os ns : List (List Cell)) (y : Nat) (s : DiffState),
      (diffRowsChunks width y os ns s).1.map (fun e => e.1) =
        changedGlyphPositions width y os ns := by
  intro os
  induction os with
  | nil => intro ns y s; rfl
  | cons o os2 ih =>
    intro ns y s
    cases ns with
    | nil => rfl
    | cons n ns2 =>
      unfold diffRowsChunks changedGlyphPositions
      simp [diffRowChunksAux_positions, ih]

/-- Every changed glyph position of a row lies in that row, at or after
the starting column. -/
theorem changedGlyphAux_mem (y : Nat) (o n : List Cell) :
    ∀ fuel x p, p ∈ changedGlyphAux y o n x fuel → p.y = y ∧ x ≤ p.x := by
  intro fuel
  induction fuel with
  | zero => intro x p hp; simp [changedGlyphAux] at hp
  | succ m ih =>
    intro x p hp
    unfold changedGlyphAux at hp
    cases ho : o.get? x with
    | none => rw [ho] at hp; simp at hp
    | some oc =>
      cases hn : n.get? x with
      | none => rw [ho, hn] at hp; simp at hp
      | some nc =>
        rw [ho, hn] at hp
        dsimp only at hp
        rw [List.mem_append] at hp
        rcases hp with hp | hp
        · by_cases he : nc = oc
          · rw [if_pos he] at hp; simp at hp
          · rw [if_neg he] at hp
            cases nc with
            | continuation => simp at hp
            | char c d st =>
              simp at hp
              subst hp
              exact ⟨rfl, Nat.le_refl x⟩
        · obtain ⟨h1, h2⟩ := ih (x + 1) p hp
          exact ⟨h1, Nat.le_of_succ_le h2⟩

/-- The changed glyph positions of a row are strictly ascending in
row-major order. -/
theorem changedGlyphAux_chain (y : Nat) (o n : List Cell) :
    ∀ fuel x, List.Chain' rmLt (changedGlyphAux y o n x fuel) := by
  intro fuel
  induction fuel with
  | zero => intro x; simp [changedGlyphAux]
  | succ m ih =>
    intro x
    unfold changedGlyphAux
    cases ho : o.get? x with
    | none => exact List.chain'_nil
    | some oc =>
      cases hn : n.get? x with
      | none => exact List.chain'_nil
      | some nc =>
        dsimp only
        by_cases he : nc = oc
        · rw [if_pos he]
          simpa using ih (x + 1)
        · rw [if_neg he]
          cases nc with
          | continuation => simpa using ih (x + 1)
          | char c d st =>
            rw [show (match (Cell.char c d st : Cell) with
                | Cell.continuation => ([] : List (Vec2 Nat))
                | Cell.char _ _ _ => [(⟨x, y⟩ : Vec2 Nat)]) = [⟨x, y⟩] from rfl,
              List.singleton_append, List.chain'_cons']
            refine ⟨?_, ih (x + 1)⟩
            intro b hb
            have hmem : b ∈ changedGlyphAux y o n (x + 1) m :=
              List.mem_of_mem_head? hb
            obtain ⟨h1, h2⟩ := changedGlyphAux_mem y o n m (x + 1) b hmem
            exact Or.inr ⟨h1.symm, Nat.lt_of_succ_le h2⟩

/-- Every changed glyph position from row y on lies in row y or a later
one. -/
theorem changedGlyphPositions_mem (width : Nat) :
    ∀ (os ns : List (List Cell)) (y : Nat) (p : Vec2 Nat),
      p ∈ changedGlyphPositions width y os ns → y ≤ p.y := by
  intro os
  induction os with
  | nil => intro ns y p hp; simp [changedGlyphPositions] at hp
  | cons o os2 ih =>
    intro ns y p hp
    cases ns with
    | nil => simp [changedGlyphPositions] at hp
    | cons n ns2 =>
      unfold changedGlyphPositions at hp
      rw [List.mem_append] at hp
      rcases hp with hp | hp
      · exact Nat.le_of_eq (changedGlyphAux_mem y o n _ 0 p hp).1.symm
      · exact Nat.le_of_succ_le (ih ns2 (y + 1) p hp)

/-- The changed glyph positions of a buffer pair are strictly ascending
in row-major order. -/
theorem changedGlyphPositions_chain (width : Nat) :
    ∀ (os ns : List (List Cell)) (y : Nat),
      List.Chain' rmLt (changedGlyphPositions width y os ns) := by
  intro os
  induction os with
  | nil => intro ns y; simp [changedGlyphPositions]
  | cons o os2 ih =>
    intro ns y
    cases ns with
    | nil => simp [changedGlyphPositions]
    | cons n ns2 =>
      unfold changedGlyphPositions
      refine List.Chain'.append (changedGlyphAux_chain y o n (min o.length n.length) 0)
        (ih ns2 (y + 1)) ?_
      intro a ha b hb
      have hamem : a ∈ changedGlyphAux y o n 0 (min o.length n.length) :=
        List.mem_of_mem_getLast? ha
      have hbmem : b ∈ changedGlyphPositions width (y + 1) os2 ns2 :=
        List.mem_of_mem_head? hb
      have h1 := (changedGlyphAux_mem y o n (min o.length n.length) 0 a hamem).1
      have h2 := changedGlyphPositions_mem width os2 ns2 (y + 1) b hbmem
      exact Or.inl (by omega)

/-- Membership in a conditionally empty singleton. -/
theorem mem_ite_nil_singleton {α : Type} (c : Prop) [Decidable c] (a b : α) :
    (a ∈ if c then ([] : List α) else [b]) ↔ (¬ c ∧ a = b) := by
  split_ifs with h <;> simp [h]

/-- Membership in a conditionally present singleton. -/
theorem mem_ite_singleton_nil {α : Type} (c : Prop) [Decidable c] (a b : α) :
    (a ∈ if c then [b] else ([] : List α)) ↔ (c ∧ a = b) := by
  split_ifs with h <;> simp [h]

/-- The style segment of the differ consists of style operations only,
and contains a setter for a field exactly when that field differs, with
the new value. -/
theorem diffStyles_spec (old new : Style) :
    (∀ op ∈ diffStyles old new, styleOp op)
    ∧ (∀ c, Operation.setForeground c ∈ diffStyles old new ↔
        (old.foreground ≠ new.foreground ∧ c = new.foreground))
    ∧ (∀ c, Operation.setBackground c ∈ diffStyles old new ↔
        (old.background ≠ new.background ∧ c = new.background))
    ∧ (∀ i, Operation.setIntensity i ∈ diffStyles old new ↔
        (old.attributes.intensity ≠ new.attributes.intensity ∧ i = new.attributes.intensity))
    ∧ (∀ b, Operation.setItalic b ∈ diffStyles old new ↔
        (old.attributes.italic ≠ new.attributes.italic ∧ b = new.attributes.italic))
    ∧ (∀ b, Operation.setUnderlined b ∈ diffStyles old new ↔
        (old.attributes.underlined ≠ new.attributes.underlined ∧ b = new.attributes.underlined))
    ∧ (∀ b, Operation.setBlinking b ∈ diffStyles old new ↔
        (old.attributes.blinking ≠ new.attributes.blinking ∧ b = new.attributes.blinking))
    ∧ (∀ b, Operation.setCrossedOut b ∈ diffStyles old new ↔
        (old.attributes.crossed_out ≠ new.attributes.crossed_out ∧
          b = new.attributes.crossed_out)) := by
  refine ⟨?_, ?_, ?_, ?_, ?_, ?_, ?_, ?_⟩
  · intro op hop
    simp only [diffStyles, List.append_assoc, List.mem_append, mem_ite_nil_singleton] at hop
    rcases hop with ⟨_, rfl⟩ | ⟨_, rfl⟩ | ⟨_, rfl⟩ | ⟨_, rfl⟩ | ⟨_, rfl⟩ | ⟨_, rfl⟩ | ⟨_, rfl⟩ <;>
      trivial
  all_goals
    intro v
    simp only [diffStyles, List.append_assoc, List.mem_append, mem_ite_nil_singleton]
    constructor
    · rintro (⟨h, he⟩ | ⟨h, he⟩ | ⟨h, he⟩ | ⟨h, he⟩ | ⟨h, he⟩ | ⟨h, he⟩ | ⟨h, he⟩) <;>
        first
          | (cases he; exact ⟨h, rfl⟩)
          | cases he
    · rintro ⟨h, rfl⟩
      tauto

/-- Every operation of the cursor reconciliation tail only touches the
cursor. -/
theorem cursorRecon_cursorOnly (oc nc : Option Cursor) (pos : Vec2 Nat) :
    ∀ op ∈ cursorRecon oc nc pos, cursorOnlyOp op := by
  intro op hop
  unfold cursorRecon at hop
  cases nc with
  | none =>
    cases oc with
    | none => simp at hop
    | some c =>
      simp at hop
      subst hop
      trivial
  | some c =>
    cases oc with
    | none =>
      simp only [List.mem_append, mem_ite_nil_singleton, mem_ite_singleton_nil,
        List.mem_singleton] at hop
      rcases hop with ((⟨_, rfl⟩ | rfl) | rfl) | ⟨_, rfl⟩ <;> trivial
    | some c2 =>
      simp only [List.mem_append, mem_ite_nil_singleton, mem_ite_singleton_nil,
        List.mem_singleton] at hop
      rcases hop with ((⟨_, rfl⟩ | ⟨_, rfl⟩) | ⟨_, rfl⟩) | ⟨_, rfl⟩ <;> trivial

/-- Each chunk of a row sits at the visited position, holds the new
glyph cell, and consists of the style changes from the incoming held
style, then the conditional cursor move, then the write of the cell
contents. -/
theorem diffRowChunksAux_shape (width y : Nat) (o n : List Cell) :
    ∀ fuel x s e, e ∈ (diffRowChunksAux width y o n x fuel s).1 →
      ∃ contents double newStyle,
        n.get? e.1.x = some (Cell.char contents double newStyle)
        ∧ e.1.y = y
        ∧ e.2.2 =
            diffStyles e.2.1.style newStyle
              ++ (if e.2.1.cursorPos = e.1 then [] else [Operation.setCursorPos e.1])
              ++ [Operation.write contents] := by
  intro fuel
  induction fuel with
  | zero => intro x s e he; simp [diffRowChunksAux] at he
  | succ m ih =>
    intro x s e he
    unfold diffRowChunksAux at he
    cases ho : o.get? x with
    | none => rw [ho] at he; simp at he
    | some oc =>
      cases hn : n.get? x with
      | none => rw [ho, hn] at he; simp at he
      | some nc =>
        rw [ho, hn] at he
        dsimp only at he
        by_cases hz : (diffCell width ⟨x, y⟩ oc nc s).1 = []
        · rw [if_pos hz] at he
          exact ih (x + 1) _ e he
        · rw [if_neg hz] at he
          rw [List.mem_cons] at he
          rcases he with he | he
          · subst he
            have hne : ¬ (nc = oc ∨ nc = Cell.continuation) := fun hor =>
              hz ((diffCell_nil_iff width ⟨x, y⟩ oc nc s).2 hor)
            push_neg at hne
            obtain ⟨hne1, hne2⟩ := hne
            cases nc with
            | continuation => exact absurd rfl hne2
            | char c d st =>
              refine ⟨c, d, st, hn, rfl, ?_⟩
              unfold diffCell
              rw [if_neg hne1]
          · exact ih (x + 1) _ e he

/-- Each chunk of a whole diff sits at a visited position of the new
buffer holding a glyph cell, and has the style-move-write shape. -/
theorem diffRowsChunks_shape (width : Nat) :
    ∀ (os ns : List (List Cell)) (y : Nat) (s : DiffState) e,
      e ∈ (diffRowsChunks width y os ns s).1 →
      ∃ nrow contents double newStyle,
        ns.get? (e.1.y - y) = some nrow
        ∧ y ≤ e.1.y
        ∧ nrow.get? e.1.x = some (Cell.char contents double newStyle)
        ∧ e.2.2 =
            diffStyles e.2.1.style newStyle
              ++ (if e.2.1.cursorPos = e.1 then [] else [Operation.setCursorPos e.1])
              ++ [Operation.write contents] := by
  intro os
  induction os with
  | nil => intro ns y s e he; simp [diffRowsChunks] at he
  | cons o os2 ih =>
    intro ns y s e he
    cases ns with
    | nil => simp [diffRowsChunks] at he
    | cons n ns2 =>
      unfold diffRowsChunks at he
      rw [List.mem_append] at he
      rcases he with he | he
      · obtain ⟨c, d, st, h1, h2, h3⟩ :=
          diffRowChunksAux_shape width y o n (min o.length n.length) 0 s e he
        refine ⟨n, c, d, st, ?_, Nat.le_of_eq h2.symm, h1, h3⟩
        rw [h2, Nat.sub_self]
        rfl
      · obtain ⟨nrow, c, d, st, h1, h2, h3, h4⟩ := ih ns2 (y + 1) _ e he
        refine ⟨nrow, c, d, st, ?_, Nat.le_of_succ_le h2, h3, h4⟩
        rw [show e.1.y - y = (e.1.y - (y + 1)) + 1 from by omega, List.get?_cons_succ]
        exact h1

/-- C5, counterexample: a changed cell whose new value is a
continuation cell produces no write at all: two changed cells but only
one write, so the claim that every changed cell gets style, move and
write operations is false. -/
theorem diff_skips_changed_continuation_cells :
    changedCellCount
        ⟨⟨2, [[Cell.char ("a") false Style.default, Cell.char ("b") false Style.default]]⟩,
          none⟩
        ⟨⟨2, [[Cell.char ("E") true Style.default, Cell.continuation]]⟩, none⟩ = 2
    ∧ countWrites
        ((diff
          ⟨⟨2, [[Cell.char ("a") false Style.default, Cell.char ("b") false Style.default]]⟩,
            none⟩
          ⟨⟨2, [[Cell.char ("E") true Style.default, Cell.continuation]]⟩, none⟩
          ⟨Style.default, ⟨0, 0⟩⟩).1) = 1 := by
  decide

/-- C5, amended: Terminal::diff visits the changed cells whose new
value is a glyph cell in strict row-major order (changed cells whose
new value is a continuation cell are skipped without output), and for
each visited cell it emits, in order, the style setters for exactly the
fields differing from the held style with their new values, then a
cursor move exactly when the tracked position differs from the cell
position, then the write of the cell contents; after the cell chunks
only the background reset and cursor-only operations follow, so style
changes are never emitted after the write they apply to. -/
theorem diff_emission_order (A B : Buffer) (s : DiffState) :
    ((diff A B s).1 =
      ((diffChunks A B s).map (fun e => e.2.2)).flatten
        ++ Operation.setBackground Color.default ::
          cursorRecon A.cursor B.cursor
            (diffRows B.grid.width 0 A.grid.rows B.grid.rows s).2.cursorPos)
    ∧ (diffChunks A B s).map (fun e => e.1) =
        changedGlyphPositions B.grid.width 0 A.grid.rows B.grid.rows
    ∧ List.Chain' rmLt ((diffChunks A B s).map (fun e => e.1))
    ∧ (∀ e ∈ diffChunks A B s,
        ∃ nrow contents double newStyle,
          B.grid.rows.get? e.1.y = some nrow
          ∧ nrow.get? e.1.x = some (Cell.char contents double newStyle)
          ∧ e.2.2 =
              diffStyles e.2.1.style newStyle
                ++ (if e.2.1.cursorPos = e.1 then [] else [Operation.setCursorPos e.1])
                ++ [Operation.write contents])
    ∧ (∀ old new : Style,
        (∀ op ∈ diffStyles old new, styleOp op)
        ∧ (∀ c, Operation.setForeground c ∈ diffStyles old new ↔
            (old.foreground ≠ new.foreground ∧ c = new.foreground))
        ∧ (∀ c, Operation.setBackground c ∈ diffStyles old new ↔
            (old.background ≠ new.background ∧ c = new.background)))
    ∧ (∀ (oc nc : Option Cursor) (pos : Vec2 Nat), ∀ op ∈ cursorRecon oc nc pos,
        cursorOnlyOp op) := by
  obtain ⟨h1, h2⟩ := diffRowsChunks_spec B.grid.width A.grid.rows B.grid.rows 0 s
  refine ⟨?_, ?_, ?_, ?_, ?_, ?_⟩
  · show (diff A B s).1 = _
    simp only [diff]
    rw [h1]
    simp [diffChunks]
  · exact diffRowsChunks_positions B.grid.width A.grid.rows B.grid.rows 0 s
  · show List.Chain' rmLt
      (List.map (fun e => e.1) (diffRowsChunks B.grid.width 0 A.grid.rows B.grid.rows s).1)
    rw [diffRowsChunks_positions]
    exact changedGlyphPositions_chain B.grid.width A.grid.rows B.grid.rows 0
  · intro e he
    obtain ⟨nrow, c, d, st, g1, g2, g3, g4⟩ :=
      diffRowsChunks_shape B.grid.width A.grid.rows B.grid.rows 0 s e he
    rw [Nat.sub_zero] at g1
    exact ⟨nrow, c, d, st, g1, g3, g4⟩
  · intro old new
    obtain ⟨p1, p2, p3, _⟩ := diffStyles_spec old new
    exact ⟨p1, p2, p3⟩
  · exact cursorRecon_cursorOnly

/-- Reading the cell a set just wrote. -/
theorem get?_set_self {α : Type} (l : List α) (i : Nat) (a : α) (h : i < l.length) :
    (l.set i a).get? i = some a := by
  rw [List.get?_set_eq, List.get?_eq_get h]
  rfl

/-- Reading a cell a set did not touch. -/
theorem get?_set_other {α : Type} (l : List α) (i j : Nat) (a : α) (h : i ≠ j) :
    (l.set i a).get? j = l.get? j :=
  List.get?_set_ne _ _ h

/-- A successful read is within bounds. -/
theorem lt_length_of_get? {α : Type} {l : List α} {i : Nat} {a : α}
    (h : l.get? i = some a) : i < l.length := by
  rcases List.get?_eq_some.1 h with ⟨hl, _⟩
  exact hl

/-- Writing back the value a cell already holds changes nothing. -/
theorem set_get?_self {α : Type} (l : List α) (i : Nat) (a : α) (h : l.get? i = some a) :
    l.set i a = l := by
  apply List.ext_get?
  intro j
  by_cases hij : i = j
  · subst hij
    rw [get?_set_self _ _ _ (lt_length_of_get? h), h]
  · rw [get?_set_other _ _ _ _ hij]

/-- Operation streams apply in order. -/
theorem applyOps_append (isWide : String → Bool) (xs ys : List Operation) (D : DummyState) :
    applyOps isWide (xs ++ ys) D = applyOps isWide ys (applyOps isWide xs D) :=
  List.foldl_append _ _ _ _

/-- A double-wide glyph cell of a well-formed row is followed by a
continuation cell. -/
theorem rowWF_fwd {w : Nat} {r : List Cell} (h : rowWF w r) {j : Nat} {c : String}
    {st : Style} (hj : r.get? j = some (Cell.char c true st)) :
    r.get? (j + 1) = some Cell.continuation := by
  obtain ⟨hlen, hfwd, _⟩ := h
  have hlt : j < w := hlen ▸ lt_length_of_get? hj
  apply hfwd j hlt
  rw [List.getD_eq_getD_get?, hj]
  rfl

/-- A continuation cell of a well-formed row follows a double-wide
glyph cell. -/
theorem rowWF_bwd {w : Nat} {r : List Cell} (h : rowWF w r) {j : Nat}
    (hj : r.get? j = some Cell.continuation) :
    1 ≤ j ∧ ∃ c st, r.get? (j - 1) = some (Cell.char c true st) := by
  obtain ⟨hlen, _, hbwd⟩ := h
  have hlt : j < w := hlen ▸ lt_length_of_get? hj
  obtain ⟨h1, h2⟩ := hbwd j hlt (by rw [List.getD_eq_getD_get?, hj]; rfl)
  refine ⟨h1, ?_⟩
  have hj1 : j - 1 < r.length := by omega
  obtain ⟨v, hv⟩ : ∃ v, r.get? (j - 1) = some v :=
    ⟨r.get ⟨j - 1, hj1⟩, List.get?_eq_get hj1⟩
  rw [List.getD_eq_getD_get?, hv] at h2
  cases v with
  | continuation => simp [cellDouble] at h2
  | char c d st =>
    cases d with
    | false => simp [cellDouble] at h2
    | true => exact ⟨c, st, hv⟩

/-- The double flags of a width-consistent row agree with the width
function. -/
theorem wideRow_at {isWide : String → Bool} {r : List Cell} (h : wideRow isWide r)
    {j : Nat} {c : String} {d : Bool} {st : Style}
    (hj : r.get? j = some (Cell.char c d st)) : isWide c = d := by
  have hlt : j < r.length := lt_length_of_get? hj
  have := h j hlt
  rw [List.getD_eq_getD_get?, hj] at this
  simpa [cellWideOk] using this

/-- Applying the style segment of the differ to the virtual backend
ends with exactly the new style held, everything else untouched. -/
theorem applyOps_diffStyles (isWide : String → Bool) (b : Style) (D : DummyState) :
    applyOps isWide (diffStyles D.style b) D = { D with style := b } := by
  obtain ⟨w, rows, cp, ⟨f, g, ⟨i1, i2, i3, i4, i5⟩⟩, cv, cs, cb⟩ := D
  obtain ⟨f2, g2, j1, j2, j3, j4, j5⟩ := b
  by_cases h1 : f = f2 <;> by_cases h2 : g = g2 <;> by_cases h3 : i1 = j1 <;>
    by_cases h4 : i2 = j2 <;> by_cases h5 : i3 = j3 <;> by_cases h6 : i4 = j4 <;>
      by_cases h7 : i5 = j5 <;>
    simp [diffStyles, applyOps, applyOp, h1, h2, h3, h4, h5, h6, h7]

/-- Pointwise description of laying a glyph into a row over a glyph
cell: the cell itself becomes the new glyph; the next cell becomes a
continuation for a double-wide write, or a blank when a double-wide
glyph was half-covered; two cells over becomes a blank when a
double-wide write half-covered the double-wide glyph there; everything
else is untouched. -/
theorem writeGlyphRow_get? (r : List Cell) (x : Nat) (c : String) (d : Bool) (st : Style)
    (width : Nat) (hlen : r.length = width) (hx : x < width)
    (rc : String) (rd : Bool) (rst : Style) (hrx : r.get? x = some (Cell.char rc rd rst))
    (hdw : d = true → x + 1 < width)
    (hrdw : rd = true → x + 1 < width)
    (hdbl2 : d = true → rd = false → isDoubleAt r (x + 1) = true → x + 2 < width) :
    ∀ j, (writeGlyphRow r x c d st width).get? j =
      if j = x then some (Cell.char c d st)
      else if j = x + 1 ∧ d = true then some Cell.continuation
      else if j = x + 1 ∧ rd = true then some Cell.blank
      else if j = x + 2 ∧ d = true ∧ rd = false ∧ isDoubleAt r (x + 1) = true then
        some Cell.blank
      else r.get? j := by
  have hxlen : x < r.length := by omega
  have hdub : isDoubleAt r x = rd := by
    unfold isDoubleAt; rw [hrx]; cases rd <;> rfl
  have hcont : isContAt r x = false := by
    unfold isContAt; rw [hrx]; rfl
  have hov : ∀ cNew, overwriteAt r x cNew =
      (if rd = true then r.set (x + 1) Cell.blank else r).set x cNew := by
    intro cNew
    unfold overwriteAt
    rw [hdub, hcont]
    cases rd <;> simp
  have hqlen : (if rd = true then r.set (x + 1) Cell.blank else r).length = r.length := by
    cases rd <;> simp
  have hqget : ∀ k, k ≠ x + 1 →
      (if rd = true then r.set (x + 1) Cell.blank else r).get? k = r.get? k := by
    intro k hk
    cases rd with
    | false => rfl
    | true => simp only [if_pos rfl]; exact get?_set_other _ _ _ _ fun h => hk h.symm
  have hqx1t : rd = true →
      (if rd = true then r.set (x + 1) Cell.blank else r).get? (x + 1) =
        some Cell.blank := by
    intro h
    subst h
    have hb : x + 1 < r.length := by
      have := hrdw rfl
      omega
    rw [if_pos rfl]
    exact get?_set_self _ _ _ hb
  have hqx1f : rd = false →
      (if rd = true then r.set (x + 1) Cell.blank else r).get? (x + 1) = r.get? (x + 1) := by
    intro h
    subst h
    rfl
  intro j
  cases d with
  | false =>
    have he : writeGlyphRow r x c false st width =
        ((if rd = true then r.set (x + 1) Cell.blank else r)).set x
          (Cell.char c false st) := by
      unfold writeGlyphRow
      simp only [Bool.false_eq_true, if_false]
      exact hov _
    rw [he]
    by_cases hj : j = x
    · subst hj
      rw [get?_set_self _ _ _ (by rw [hqlen]; omega), if_pos rfl]
    · rw [get?_set_other _ _ _ _ fun h => hj h.symm, if_neg hj]
      by_cases hj1 : j = x + 1
      · subst hj1
        cases rd with
        | false => rw [hqx1f rfl]; simp
        | true => rw [hqx1t rfl]; simp
      · rw [hqget j hj1]
        simp [hj1]
  | true =>
    have hx1 : x + 1 < width := hdw rfl
    have hne : ¬ x + 1 = width := by omega
    have hrow1 : overwriteAt r x (Cell.char c true st) =
        (if rd = true then r.set (x + 1) Cell.blank else r).set x (Cell.char c true st) :=
      hov _
    have hrow1get : ∀ k, k ≠ x → k ≠ x + 1 →
        (overwriteAt r x (Cell.char c true st)).get? k = r.get? k := by
      intro k h1 h2
      rw [hrow1, get?_set_other _ _ _ _ fun h => h1 h.symm, hqget k h2]
    have hrow1x1 : (overwriteAt r x (Cell.char c true st)).get? (x + 1) =
        (if rd = true then some Cell.blank else r.get? (x + 1)) := by
      rw [hrow1, get?_set_other _ _ _ _ (by omega)]
      cases rd with
      | false => rw [hqx1f rfl]; rfl
      | true => rw [hqx1t rfl]; rfl
    have hrow1x : (overwriteAt r x (Cell.char c true st)).get? x =
        some (Cell.char c true st) := by
      rw [hrow1]
      exact get?_set_self _ _ _ (by rw [hqlen]; omega)
    cases hrd : rd with
    | true =>
      have hdblx1 : isDoubleAt (overwriteAt r x (Cell.char c true st)) (x + 1) = false := by
        unfold isDoubleAt
        rw [hrow1x1]
        simp [hrd, cellDouble, Cell.blank]
      have he : writeGlyphRow r x c true st width =
          (overwriteAt r x (Cell.char c true st)).set (x + 1) Cell.continuation := by
        unfold writeGlyphRow
        simp only [if_pos rfl, if_neg hne, hdblx1, Bool.false_eq_true, if_false]
        simp
      rw [he]
      have hr1len : (overwriteAt r x (Cell.char c true st)).length = r.length := by
        rw [hrow1]
        simp [hqlen]
      by_cases hj : j = x
      · subst hj
        rw [get?_set_other _ _ _ _ (by omega), hrow1x, if_pos rfl]
      · by_cases hj1 : j = x + 1
        · subst hj1
          rw [get?_set_self _ _ _ (by rw [hr1len]; omega)]
          simp [hj]
        · rw [get?_set_other _ _ _ _ fun h => hj1 h.symm, hrow1get j hj hj1]
          simp [hj, hj1, hrd]
    | false =>
      have hdblx1 : isDoubleAt (overwriteAt r x (Cell.char c true st)) (x + 1) =
          isDoubleAt r (x + 1) := by
        unfold isDoubleAt
        rw [hrow1x1]
        simp [hrd]
      cases hbl : isDoubleAt r (x + 1) with
      | false =>
        have he : writeGlyphRow r x c true st width =
            (overwriteAt r x (Cell.char c true st)).set (x + 1) Cell.continuation := by
          unfold writeGlyphRow
          simp only [if_pos rfl, if_neg hne, hdblx1, hbl, Bool.false_eq_true, if_false,
            if_true, eq_self_iff_true]
        rw [he]
        have hr1len : (overwriteAt r x (Cell.char c true st)).length = r.length := by
          rw [hrow1]
          simp [hqlen]
        by_cases hj : j = x
        · subst hj
          rw [get?_set_other _ _ _ _ (by omega), hrow1x, if_pos rfl]
        · by_cases hj1 : j = x + 1
          · subst hj1
            rw [get?_set_self _ _ _ (by rw [hr1len]; omega)]
            simp [hj]
          · rw [get?_set_other _ _ _ _ fun h => hj1 h.symm, hrow1get j hj hj1]
            simp [hj, hj1, hrd, hbl]
      | true =>
        have hx2 : x + 2 < width := hdbl2 rfl hrd hbl
        have he : writeGlyphRow r x c true st width =
            ((overwriteAt r x (Cell.char c true st)).set (x + 2) Cell.blank).set (x + 1)
              Cell.continuation := by
          unfold writeGlyphRow
          simp only [if_pos rfl, if_neg hne, hdblx1, hbl, if_true, eq_self_iff_true]
        rw [he]
        have hr1len : (overwriteAt r x (Cell.char c true st)).length = r.length := by
          rw [hrow1]
          simp [hqlen]
        by_cases hj : j = x
        · subst hj
          rw [get?_set_other _ _ _ _ (by omega), get?_set_other _ _ _ _ (by omega),
            hrow1x, if_pos rfl]
        · by_cases hj1 : j = x + 1
          · subst hj1
            rw [get?_set_self _ _ _ (by simp [hr1len]; omega)]
            simp [hj]
          · by_cases hj2 : j = x + 2
            · subst hj2
              rw [get?_set_other _ _ _ _ (by omega),
                get?_set_self _ _ _ (by rw [hr1len]; omega)]
              simp [hj, hj1, hrd, hbl]
            · rw [get?_set_other _ _ _ _ fun h => hj1 h.symm,
                get?_set_other _ _ _ _ fun h => hj2 h.symm, hrow1get j hj hj1]
              simp [hj, hj1, hj2, hrd, hbl]

/-- A cell is double exactly when it is a double-wide glyph cell. -/
theorem cellDouble_iff (v : Cell) : cellDouble v = true ↔ ∃ cc sst, v = Cell.char cc true sst := by
  cases v with
  | continuation => simp [cellDouble]
  | char a b s2 => cases b <;> simp [cellDouble]

/-- A cell is a continuation exactly when it is the continuation cell. -/
theorem cellCont_iff (v : Cell) : cellCont v = true ↔ v = Cell.continuation := by
  cases v with
  | continuation => simp [cellCont]
  | char a b s2 => simp [cellCont]

/-- The double test at a column names a double-wide glyph cell there. -/
theorem isDoubleAt_iff (r : List Cell) (k : Nat) :
    isDoubleAt r k = true ↔ ∃ cc sst, r.get? k = some (Cell.char cc true sst) := by
  unfold isDoubleAt
  cases hv : r.get? k with
  | none => simp [cellDouble, Cell.blank]
  | some v =>
    cases v with
    | continuation => simp [cellDouble]
    | char a b s2 => cases b <;> simp [cellDouble]

/-- Reading through the default accessor. -/
theorem getD_of_get? {l : List Cell} {j : Nat} {v : Cell} (h : l.get? j = some v) :
    l.getD j Cell.blank = v := by
  rw [List.getD_eq_getD_get?, h]
  rfl

/-- Any in-bounds column reads some cell. -/
theorem exists_get?_of_lt {α : Type} {l : List α} {j : Nat} (h : j < l.length) :
    ∃ v, l.get? j = some v :=
  ⟨l.get ⟨j, h⟩, List.get?_eq_get h⟩

/-- Laying a glyph into a row preserves its length. -/
theorem writeGlyphRow_length (r : List Cell) (x : Nat) (c : String) (d : Bool) (st : Style)
    (width : Nat) : (writeGlyphRow r x c d st width).length = r.length := by
  unfold writeGlyphRow overwriteAt
  split_ifs <;> simp [apply_ite List.length]

/-- When the differ is about to write a cell, the virtual backend row
holds a glyph cell at the write position: either the old cell (never a
continuation) or a cleanup blank over an old continuation. -/
theorem write_case_rx (width x : Nat) (o n r : List Cell)
    (hn : rowWF width n) (ho : rowWF width o) (hr : rowWF width r)
    (hinv : RowInv o n r x)
    (c : String) (d : Bool) (st : Style)
    (hnx : n.get? x = some (Cell.char c d st))
    (hdiff : n.get? x ≠ o.get? x) :
    ∃ rc rd rst, r.get? x = some (Cell.char rc rd rst)
      ∧ (rd = true → o.get? x = some (Cell.char rc true rst)
          ∧ o.get? (x + 1) = some Cell.continuation)
      ∧ (r.get? x = o.get? x
          ∨ (r.get? x = some Cell.blank ∧ o.get? x = some Cell.continuation)) := by
  obtain ⟨hltInv, hge, hC⟩ := hinv
  have hxw : x < width := hn.1 ▸ lt_length_of_get? hnx
  rcases hge x (Nat.le_refl x) with h1 | h2 | h3
  · -- the row still holds the old cell
    obtain ⟨v, hv⟩ := exists_get?_of_lt (l := o) (j := x) (by have := ho.1; omega)
    have hrv : r.get? x = some v := h1.trans hv
    cases v with
    | continuation =>
      obtain ⟨hx1, c2, st2, hprev⟩ := rowWF_bwd hr hrv
      have hnprev : n.get? (x - 1) = some (Cell.char c2 true st2) := by
        rw [← hltInv (x - 1) (by omega)]
        exact hprev
      have : n.get? (x - 1 + 1) = some Cell.continuation := rowWF_fwd hn hnprev
      rw [show x - 1 + 1 = x from by omega, hnx] at this
      cases this
    | char rc rd rst =>
      refine ⟨rc, rd, rst, hrv, ?_, Or.inl h1⟩
      intro hrd
      subst hrd
      have hov : o.get? x = some (Cell.char rc true rst) := h1.symm.trans hrv
      exact ⟨hov, rowWF_fwd ho hov⟩
  · -- the row holds a cleanup blank
    exact ⟨(" "), false, Style.default, h2.1, (fun h => absurd h Bool.false_ne_true),
      Or.inr ⟨h2.1, h2.2.1⟩⟩
  · -- the continuation marker case contradicts the glyph cell
    rw [hnx] at h3
    cases h3.2

/-- Writing the new glyph cell into the virtual backend row preserves
the row invariants and advances the reconciliation invariant one
column. -/
theorem write_step (width x : Nat) (o n r : List Cell)
    (ho : rowWF width o) (hn : rowWF width n) (hr : rowWF width r)
    (hinv : RowInv o n r x)
    (c : String) (d : Bool) (st : Style)
    (hnx : n.get? x = some (Cell.char c d st))
    (hdiff : n.get? x ≠ o.get? x) :
    rowWF width (writeGlyphRow r x c d st width)
    ∧ RowInv o n (writeGlyphRow r x c d st width) (x + 1) := by
  obtain ⟨rc, rd, rst, hrx, hrdo, hcase⟩ :=
    write_case_rx width x o n r hn ho hr hinv c d st hnx hdiff
  obtain ⟨hltInv, hge, hC⟩ := hinv
  have hxw : x < width := hn.1 ▸ lt_length_of_get? hnx
  have hdw : d = true → x + 1 < width := by
    intro hd
    subst hd
    exact hn.1 ▸ lt_length_of_get? (rowWF_fwd hn hnx)
  have hrdw : rd = true → x + 1 < width := by
    intro h
    exact ho.1 ▸ lt_length_of_get? (hrdo h).2
  have hrd_imp : rd = true → r.get? (x + 1) = some Cell.continuation := by
    intro h
    subst h
    exact rowWF_fwd hr hrx
  have hdbl2 : d = true → rd = false → isDoubleAt r (x + 1) = true → x + 2 < width := by
    intro _ _ hdb
    obtain ⟨cc, sst, hcc⟩ := (isDoubleAt_iff r (x + 1)).1 hdb
    exact hr.1 ▸ lt_length_of_get? (rowWF_fwd hr hcc)
  have hDoubleRd : isDoubleAt r (x + 1) = true → rd = false := by
    intro hdb
    cases hrdv : rd with
    | false => rfl
    | true =>
      obtain ⟨cc, sst, hcc⟩ := (isDoubleAt_iff r (x + 1)).1 hdb
      have := (hrd_imp hrdv).symm.trans hcc
      simp at this
  have hnCont : d = true → n.get? (x + 1) = some Cell.continuation := by
    intro hd
    subst hd
    exact rowWF_fwd hn hnx
  have hnNotCont : d = false → n.get? (x + 1) ≠ some Cell.continuation := by
    intro hd hcontr
    subst hd
    obtain ⟨h1, cc, sst, hprev⟩ := rowWF_bwd hn hcontr
    rw [show x + 1 - 1 = x from rfl, hnx] at hprev
    simp at hprev
  have hget := writeGlyphRow_get? r x c d st width hr.1 hxw rc rd rst hrx hdw hrdw hdbl2
  have hlen2 : (writeGlyphRow r x c d st width).length = width := by
    rw [writeGlyphRow_length, hr.1]
  refine ⟨⟨hlen2, ?_, ?_⟩, ?_, ?_, ?_⟩
  · -- forward invariant of the written row
    intro j hj hdbl
    obtain ⟨v, hv⟩ := exists_get?_of_lt (l := writeGlyphRow r x c d st width) (j := j)
      (by omega)
    rw [getD_of_get? hv] at hdbl
    obtain ⟨cc, sst, rfl⟩ := (cellDouble_iff v).1 hdbl
    rw [hget j] at hv
    by_cases hjx : j = x
    · subst hjx
      rw [if_pos rfl] at hv
      simp only [Option.some.injEq, Cell.char.injEq] at hv
      obtain ⟨hc1, hc2, hc3⟩ := hv
      rw [hget (j + 1), if_neg (by omega), if_pos ⟨rfl, hc2⟩]
    · rw [if_neg hjx] at hv
      by_cases hjx1 : j = x + 1
      · subst hjx1
        by_cases hd : d = true
        · rw [if_pos ⟨rfl, hd⟩] at hv
          simp at hv
        · rw [if_neg (fun hh => hd hh.2)] at hv
          by_cases hrdv : rd = true
          · rw [if_pos ⟨rfl, hrdv⟩] at hv
            simp [Cell.blank] at hv
          · rw [if_neg (fun hh => hrdv hh.2), if_neg (by rintro ⟨h2, -⟩; omega)] at hv
            have hnext : r.get? (x + 1 + 1) = some Cell.continuation := rowWF_fwd hr hv
            rw [hget (x + 1 + 1), if_neg (by omega), if_neg (by rintro ⟨h2, -⟩; omega),
              if_neg (by rintro ⟨h2, -⟩; omega),
              if_neg (by
                rintro ⟨-, hdd, -, -⟩
                exact hd hdd)]
            exact hnext
      · by_cases hjx2 : j = x + 2 ∧ d = true ∧ rd = false ∧ isDoubleAt r (x + 1) = true
        · rw [if_neg (fun hh => hjx1 hh.1), if_neg (fun hh => hjx1 hh.1),
            if_pos hjx2] at hv
          simp [Cell.blank] at hv
        · rw [if_neg (fun hh => hjx1 hh.1), if_neg (fun hh => hjx1 hh.1),
            if_neg hjx2] at hv
          have hnext : r.get? (j + 1) = some Cell.continuation := rowWF_fwd hr hv
          by_cases hj1x : j + 1 = x
          · exfalso
            rw [hj1x, hrx] at hnext
            simp at hnext
          · rw [hget (j + 1), if_neg hj1x,
              if_neg (fun hh => hjx (Nat.add_right_cancel hh.1)),
              if_neg (fun hh => hjx (Nat.add_right_cancel hh.1)),
              if_neg (fun hh => hjx1 (Nat.add_right_cancel hh.1))]
            exact hnext
  · -- backward invariant of the written row
    intro j hj hcont
    obtain ⟨v, hv⟩ := exists_get?_of_lt (l := writeGlyphRow r x c d st width) (j := j)
      (by omega)
    rw [getD_of_get? hv] at hcont
    obtain rfl := (cellCont_iff v).1 hcont
    rw [hget j] at hv
    by_cases hjx : j = x
    · subst hjx
      rw [if_pos rfl] at hv
      simp at hv
    · rw [if_neg hjx] at hv
      by_cases hjx1 : j = x + 1
      · subst hjx1
        refine ⟨by omega, ?_⟩
        rw [show x + 1 - 1 = x from rfl]
        by_cases hd : d = true
        · rw [getD_of_get? (by rw [hget x, if_pos rfl] : (writeGlyphRow r x c d st width).get? x = some (Cell.char c d st))]
          rw [hd]
          rfl
        · exfalso
          rw [if_neg (fun hh => hd hh.2)] at hv
          by_cases hrdv : rd = true
          · rw [if_pos ⟨rfl, hrdv⟩] at hv
            simp [Cell.blank] at hv
          · rw [if_neg (fun hh => hrdv hh.2), if_neg (by rintro ⟨h2, -⟩; omega)] at hv
            obtain ⟨h1, cc, sst, hprev⟩ := rowWF_bwd hr hv
            rw [show x + 1 - 1 = x from rfl, hrx] at hprev
            simp only [Option.some.injEq, Cell.char.injEq] at hprev
            exact hrdv hprev.2.1
      · by_cases hjx2 : j = x + 2
        · subst hjx2
          refine ⟨by omega, ?_⟩
          rw [show x + 2 - 1 = x + 1 from rfl]
          by_cases hjf : x + 2 = x + 2 ∧ d = true ∧ rd = false ∧ isDoubleAt r (x + 1) = true
          · exfalso
            rw [if_neg (by rintro ⟨h2, -⟩; omega), if_neg (by rintro ⟨h2, -⟩; omega),
              if_pos hjf] at hv
            simp [Cell.blank] at hv
          · rw [if_neg (by rintro ⟨h2, -⟩; omega), if_neg (by rintro ⟨h2, -⟩; omega),
              if_neg hjf] at hv
            obtain ⟨h1, cc, sst, hprev⟩ := rowWF_bwd hr hv
            rw [show x + 2 - 1 = x + 1 from rfl] at hprev
            have hdb : isDoubleAt r (x + 1) = true :=
              (isDoubleAt_iff r (x + 1)).2 ⟨cc, sst, hprev⟩
            have hrdF : rd = false := hDoubleRd hdb
            have hd : d = false := by
              cases hdv : d with
              | false => rfl
              | true => exact absurd ⟨rfl, hdv, hrdF, hdb⟩ hjf
            rw [getD_of_get? (show (writeGlyphRow r x c d st width).get? (x + 1) =
                some (Cell.char cc true sst) from by
              rw [hget (x + 1), if_neg (by omega),
                if_neg (fun hh => absurd (hd.symm.trans hh.2) Bool.false_ne_true),
                if_neg (fun hh => absurd (hrdF.symm.trans hh.2) Bool.false_ne_true),
                if_neg (by rintro ⟨h2, -⟩; omega)]
              exact hprev)]
            rfl
        · rw [if_neg (fun hh => hjx1 hh.1), if_neg (fun hh => hjx1 hh.1),
            if_neg (fun hh => hjx2 hh.1)] at hv
          obtain ⟨h1, cc, sst, hprev⟩ := rowWF_bwd hr hv
          refine ⟨h1, ?_⟩
          have hj1x : ¬ (j - 1 = x) := fun hh => hjx1 (by omega)
          have hj1x1 : ¬ (j - 1 = x + 1) := fun hh => hjx2 (by omega)
          by_cases hj1x2 : j - 1 = x + 2
          · have hnotf : ¬ (j - 1 = x + 2 ∧ d = true ∧ rd = false
                ∧ isDoubleAt r (x + 1) = true) := by
              rintro ⟨-, -, -, hdb⟩
              obtain ⟨c2, s2, hc2⟩ := (isDoubleAt_iff r (x + 1)).1 hdb
              have hcontx2 := rowWF_fwd hr hc2
              rw [show x + 1 + 1 = x + 2 from rfl, ← hj1x2, hprev] at hcontx2
              simp at hcontx2
            rw [getD_of_get? (show (writeGlyphRow r x c d st width).get? (j - 1) =
                some (Cell.char cc true sst) from by
              rw [hget (j - 1), if_neg hj1x, if_neg (fun hh => hj1x1 hh.1),
                if_neg (fun hh => hj1x1 hh.1), if_neg hnotf]
              exact hprev)]
            rfl
          · rw [getD_of_get? (show (writeGlyphRow r x c d st width).get? (j - 1) =
                some (Cell.char cc true sst) from by
              rw [hget (j - 1), if_neg hj1x, if_neg (fun hh => hj1x1 hh.1),
                if_neg (fun hh => hj1x1 hh.1), if_neg (fun hh => hj1x2 hh.1)]
              exact hprev)]
            rfl
  · -- the reconciled prefix grows by one column
    intro j hjlt
    by_cases hjx : j = x
    · subst hjx
      rw [hget j, if_pos rfl, hnx]
    · have hjlt2 : j < x := by omega
      rw [hget j, if_neg hjx, if_neg (by rintro ⟨h2, -⟩; omega),
        if_neg (by rintro ⟨h2, -⟩; omega), if_neg (by rintro ⟨h2, -⟩; omega)]
      exact hltInv j hjlt2
  · -- the suffix invariant at the next column
    intro j hjge
    by_cases hjx1 : j = x + 1
    · subst hjx1
      by_cases hd : d = true
      · exact Or.inr (Or.inr ⟨rfl, hnCont hd⟩)
      · have hd2 : d = false := by
          cases d
          · rfl
          · exact absurd rfl hd
        by_cases hrdv : rd = true
        · refine Or.inr (Or.inl ⟨?_, (hrdo hrdv).2, hnNotCont hd2⟩)
          rw [hget (x + 1), if_neg (by omega), if_neg (fun hh => hd hh.2),
            if_pos ⟨rfl, hrdv⟩]
        · have heq : (writeGlyphRow r x c d st width).get? (x + 1) = r.get? (x + 1) := by
            rw [hget (x + 1), if_neg (by omega), if_neg (fun hh => hd hh.2),
              if_neg (fun hh => hrdv hh.2), if_neg (by rintro ⟨h2, -⟩; omega)]
          rcases hge (x + 1) (by omega) with h | h | h
          · exact Or.inl (heq ▸ h)
          · exact Or.inr (Or.inl ⟨heq ▸ h.1, h.2.1, h.2.2⟩)
          · exact absurd h.1 (by omega)
    · by_cases hjf : j = x + 2 ∧ d = true ∧ rd = false ∧ isDoubleAt r (x + 1) = true
      · obtain ⟨hje, hdv, hrdv, hdb⟩ := hjf
        subst hje
        obtain ⟨c2, s2, hc2⟩ := (isDoubleAt_iff r (x + 1)).1 hdb
        have hox1 : o.get? (x + 1) = some (Cell.char c2 true s2) := by
          rcases hge (x + 1) (by omega) with h | h | h
          · exact h.symm.trans hc2
          · exfalso
            have := hc2.symm.trans h.1
            simp [Cell.blank] at this
          · exact absurd h.1 (by omega)
        refine Or.inr (Or.inl ⟨?_, ?_, ?_⟩)
        · rw [hget (x + 2), if_neg (by omega), if_neg (by rintro ⟨h2, -⟩; omega),
            if_neg (by rintro ⟨h2, -⟩; omega), if_pos ⟨rfl, hdv, hrdv, hdb⟩]
        · exact (show x + 1 + 1 = x + 2 from rfl) ▸ rowWF_fwd ho hox1
        · intro hcontr
          obtain ⟨h1, cc, sst, hprev⟩ := rowWF_bwd hn hcontr
          rw [show x + 2 - 1 = x + 1 from rfl, hnCont hdv] at hprev
          simp at hprev
      · have heq : (writeGlyphRow r x c d st width).get? j = r.get? j := by
          rw [hget j, if_neg (by omega), if_neg (fun hh => hjx1 hh.1),
            if_neg (fun hh => hjx1 hh.1), if_neg hjf]
        rcases hge j (by omega) with h | h | h
        · exact Or.inl (heq ▸ h)
        · exact Or.inr (Or.inl ⟨heq ▸ h.1, h.2.1, h.2.2⟩)
        · exact absurd h.1 (by omega)
  · -- the continuation marker for the next column
    intro hcontr
    obtain ⟨h1, cc, sst, hprev⟩ := rowWF_bwd hn hcontr
    rw [show x + 1 - 1 = x from rfl, hnx] at hprev
    simp only [Option.some.injEq, Cell.char.injEq] at hprev
    rw [hget (x + 1), if_neg (by omega), if_pos ⟨rfl, hprev.2.1⟩]

/-- When the differ skips a cell (equal cells or a new continuation
cell), the reconciliation invariant still advances one column. -/
theorem skip_step (width x : Nat) (o n r : List Cell)
    (ho : rowWF width o) (hn : rowWF width n) (hr : rowWF width r)
    (hinv : RowInv o n r x)
    (hskip : n.get? x = o.get? x ∨ n.get? x = some Cell.continuation)
    (hxw : x < width) :
    RowInv o n r (x + 1) := by
  obtain ⟨hltInv, hge, hC⟩ := hinv
  have hrx : r.get? x = n.get? x := by
    rcases hskip with h | h
    · rcases hge x (Nat.le_refl x) with h1 | h2 | h3
      · rw [h1, ← h]
      · exact absurd (h.trans h2.2.1) h2.2.2
      · exact (hC h3.2).trans h3.2.symm
    · exact (hC h).trans h.symm
  refine ⟨?_, ?_, ?_⟩
  · intro j hj
    by_cases hjx : j = x
    · subst hjx
      exact hrx
    · exact hltInv j (by omega)
  · intro j hj
    rcases hge j (by omega) with h1 | h2 | h3
    · exact Or.inl h1
    · exact Or.inr (Or.inl h2)
    · exact absurd h3.1 (by omega)
  · intro hcontr
    obtain ⟨h1, cc, sst, hprev⟩ := rowWF_bwd hn hcontr
    rw [show x + 1 - 1 = x from rfl] at hprev
    rcases hskip with h | h
    · have hox : o.get? x = some (Cell.char cc true sst) := h.symm.trans hprev
      have hocont := rowWF_fwd ho hox
      rcases hge (x + 1) (by omega) with h1 | h2 | h3
      · rw [h1, hocont]
      · exact absurd hcontr h2.2.2
      · exact absurd h3.1 (by omega)
    · exact absurd (h.symm.trans hprev) (by simp)

/-- Applying the operations of one differ row to the virtual backend
replaces that backend row by the new row, and leaves the backend in the
row-final tracked cursor position and held style. -/
theorem diffRow_apply (isWide : String → Bool) (width y : Nat) (o n : List Cell)
    (ho : rowWF width o) (hn : rowWF width n) (hnW : wideRow isWide n) :
    ∀ (fuel x : Nat) (s : DiffState) (D : DummyState) (r : List Cell),
      x + fuel = width →
      D.width = width →
      D.rows.get? y = some r →
      rowWF width r →
      RowInv o n r x →
      D.cursorPos = s.cursorPos →
      D.style = s.style →
      applyOps isWide (diffRowAux width y o n x fuel s).1 D =
        { D with
          rows := D.rows.set y n
          cursorPos := (diffRowAux width y o n x fuel s).2.cursorPos
          style := (diffRowAux width y o n x fuel s).2.style } := by
  intro fuel
  induction fuel with
  | zero =>
    intro x s D r hfuel hDw hDr hrWF hinv hcur hsty
    have hrn : r = n := by
      apply List.ext_get?
      intro j
      by_cases hj : j < width
      · exact hinv.1 j (by omega)
      · rw [List.get?_eq_none.2 (by rw [hrWF.1]; omega),
          List.get?_eq_none.2 (by rw [hn.1]; omega)]
    rw [show (diffRowAux width y o n x 0 s) = ([], s) from rfl, ← hrn]
    rw [set_get?_self _ _ _ hDr, ← hcur, ← hsty]
    rfl
  | succ m ih =>
    intro x s D r hfuel hDw hDr hrWF hinv hcur hsty
    have hxw : x < width := by omega
    obtain ⟨oc, hoc⟩ := exists_get?_of_lt (l := o) (j := x) (by rw [ho.1]; omega)
    obtain ⟨nc, hnc⟩ := exists_get?_of_lt (l := n) (j := x) (by rw [hn.1]; omega)
    unfold diffRowAux
    rw [hoc, hnc]
    dsimp only
    by_cases hskip : nc = oc ∨ nc = Cell.continuation
    · have hcell : diffCell width ⟨x, y⟩ oc nc s = ([], s) := by
        rcases hskip with h | h
        · subst h
          exact diffCell_self width ⟨x, y⟩ nc s
        · subst h
          unfold diffCell
          split_ifs <;> rfl
      rw [hcell]
      rw [List.nil_append]
      exact ih (x + 1) s D r (by omega) hDw hDr hrWF
        (skip_step width x o n r ho hn hrWF ⟨hinv.1, hinv.2.1, hinv.2.2⟩
          (by
            rcases hskip with h | h
            · exact Or.inl (by rw [hnc, hoc, h])
            · exact Or.inr (by rw [hnc, h]))
          hxw)
        hcur hsty
    · push_neg at hskip
      obtain ⟨hne1, hne2⟩ := hskip
      cases nc with
      | continuation => exact absurd rfl hne2
      | char c dd stc =>
        have hdiff : n.get? x ≠ o.get? x := by
          rw [hnc, hoc]
          intro hh
          exact hne1 (Option.some.inj hh)
        have hwide : isWide c = dd := wideRow_at hnW hnc
        have hylen : y < D.rows.length := lt_length_of_get? hDr
        obtain ⟨hrWF2, hinv2⟩ :=
          write_step width x o n r ho hn hrWF ⟨hinv.1, hinv.2.1, hinv.2.2⟩ c dd stc hnc hdiff
        have hcell1 : (diffCell width ⟨x, y⟩ oc (Cell.char c dd stc) s).1 =
            diffStyles s.style stc
              ++ (if s.cursorPos = ⟨x, y⟩ then [] else [Operation.setCursorPos ⟨x, y⟩])
              ++ [Operation.write c] := by
          unfold diffCell
          rw [if_neg hne1]
        have hcell2 : (diffCell width ⟨x, y⟩ oc (Cell.char c dd stc) s).2 =
            ⟨stc, ⟨min (x + (if dd then 2 else 1)) (width - 1), y⟩⟩ := by
          unfold diffCell
          rw [if_neg hne1]
        rw [hcell1, hcell2, applyOps_append, applyOps_append, applyOps_append]
        have hD1 : applyOps isWide (diffStyles s.style stc) D = { D with style := stc } := by
          rw [← hsty]
          exact applyOps_diffStyles isWide stc D
        rw [hD1]
        have hD2 : applyOps isWide
            (if s.cursorPos = ⟨x, y⟩ then [] else [Operation.setCursorPos ⟨x, y⟩])
            { D with style := stc } =
            { D with style := stc, cursorPos := ⟨x, y⟩ } := by
          by_cases hmv : s.cursorPos = (⟨x, y⟩ : Vec2 Nat)
          · rw [if_pos hmv]
            show { D with style := stc } = _
            rw [← hmv, ← hcur]
          · rw [if_neg hmv]
            rfl
        rw [hD2]
        have hD3 : applyOps isWide [Operation.write c]
            { D with style := stc, cursorPos := ⟨x, y⟩ } =
            { D with
              rows := D.rows.set y (writeGlyphRow r x c dd stc width)
              cursorPos := ⟨min (x + (if dd then 2 else 1)) (width - 1), y⟩
              style := stc } := by
          show dummyWrite isWide c { D with style := stc, cursorPos := ⟨x, y⟩ } = _
          unfold dummyWrite
          rw [if_pos (show x < D.width ∧ y < D.rows.length from ⟨by omega, hylen⟩)]
          rw [show ({ D with style := stc, cursorPos := ⟨x, y⟩ } : DummyState).rows.get? y
              = some r from hDr]
          rw [hwide, hDw]
          rfl
        rw [hD3]
        have happ := ih (x + 1) ⟨stc, ⟨min (x + (if dd then 2 else 1)) (width - 1), y⟩⟩
          { D with
            rows := D.rows.set y (writeGlyphRow r x c dd stc width)
            cursorPos := ⟨min (x + (if dd then 2 else 1)) (width - 1), y⟩
            style := stc }
          (writeGlyphRow r x c dd stc width)
          (by omega) (by rw [hDw]) (get?_set_self _ _ _ hylen) hrWF2 hinv2 rfl rfl
        rw [happ]
        simp [List.set_set]

/-- Reading an appended list at the length of the left part. -/
theorem get?_append_length {α : Type} (l₁ l₂ : List α) (b : α) :
    (l₁ ++ b :: l₂).get? l₁.length = some b := by
  induction l₁ with
  | nil => rfl
  | cons hd tl ih => exact ih

/-- Setting an appended list at the length of the left part. -/
theorem set_append_length {α : Type} (l₁ l₂ : List α) (b a : α) :
    (l₁ ++ b :: l₂).set l₁.length a = l₁ ++ a :: l₂ := by
  induction l₁ with
  | nil => rfl
  | cons hd tl ih => simp [ih]

/-- At the start of a row the reconciliation invariant holds with the
backend row equal to the old row: the new row never starts with a
continuation cell. -/
theorem RowInv_zero {width : Nat} (o n : List Cell) (hn : rowWF width n) :
    RowInv o n o 0 := by
  refine ⟨fun j hj => absurd hj (Nat.not_lt_zero j), fun j hj => Or.inl rfl, ?_⟩
  intro hc
  obtain ⟨h1, _⟩ := rowWF_bwd hn hc
  exact absurd h1 (by omega)

/-- Applying the operations of the row loops of the differ to the
virtual backend replaces the remaining old rows by the new rows and
leaves the backend at the final tracked cursor position and held
style. -/
theorem diffRows_apply (isWide : String → Bool) (width : Nat) :
    ∀ (os : List (List Cell)), ∀ (ns pre : List (List Cell)) (y : Nat) (s : DiffState)
      (D : DummyState),
      pre.length = y →
      os.length = ns.length →
      (∀ r ∈ os, rowWF width r) →
      (∀ r ∈ ns, rowWF width r) →
      (∀ r ∈ ns, wideRow isWide r) →
      D.width = width →
      D.rows = pre ++ os →
      D.cursorPos = s.cursorPos →
      D.style = s.style →
      applyOps isWide (diffRows width y os ns s).1 D =
        { D with
          rows := pre ++ ns
          cursorPos := (diffRows width y os ns s).2.cursorPos
          style := (diffRows width y os ns s).2.style } := by
  intro os
  induction os with
  | nil =>
    intro ns pre y s D hpre hlen hos hns hwide hDw hDr hcur hsty
    cases ns with
    | nil =>
      rw [show diffRows width y [] [] s = ([], s) from rfl]
      dsimp only
      rw [← hDr, ← hcur, ← hsty]
      rfl
    | cons n ns => exact absurd hlen (by simp)
  | cons o os ih =>
    intro ns pre y s D hpre hlen hos hns hwide hDw hDr hcur hsty
    cases ns with
    | nil => exact absurd hlen (by simp)
    | cons n ns =>
      subst hpre
      have ho : rowWF width o := hos o (List.mem_cons_self _ _)
      have hn : rowWF width n := hns n (List.mem_cons_self _ _)
      have hnW : wideRow isWide n := hwide n (List.mem_cons_self _ _)
      rw [show diffRows width pre.length (o :: os) (n :: ns) s
          = ((diffRow width pre.length o n s).1
                ++ (diffRows width (pre.length + 1) os ns (diffRow width pre.length o n s).2).1,
              (diffRows width (pre.length + 1) os ns (diffRow width pre.length o n s).2).2)
          from rfl]
      dsimp only
      rw [applyOps_append]
      have hwhole : diffRow width pre.length o n s
          = diffRowAux width pre.length o n 0 width s := by
        unfold diffRow
        rw [ho.1, hn.1, Nat.min_self]
      rw [hwhole]
      have hrow := diffRow_apply isWide width pre.length o n ho hn hnW width 0 s D o
        (by omega) hDw (by rw [hDr]; exact get?_append_length pre os o) ho
        (RowInv_zero o n hn) hcur hsty
      rw [hrow, hDr, set_append_length]
      have hnext := ih ns (pre ++ [n]) (pre.length + 1)
        (diffRowAux width pre.length o n 0 width s).2
        { D with
          rows := pre ++ n :: os
          cursorPos := (diffRowAux width pre.length o n 0 width s).2.cursorPos
          style := (diffRowAux width pre.length o n 0 width s).2.style }
        (by simp) (by simpa using hlen)
        (fun r hr => hos r (List.mem_cons_of_mem _ hr))
        (fun r hr => hns r (List.mem_cons_of_mem _ hr))
        (fun r hr => hwide r (List.mem_cons_of_mem _ hr))
        hDw (by simp) rfl rfl
      rw [hnext]
      simp

/-- A cursor-only operation changes neither the width, the rows nor the
held style of the virtual backend. -/
theorem applyOp_cursorOnly (isWide : String → Bool) (D : DummyState) (op : Operation)
    (h : cursorOnlyOp op) :
    (applyOp isWide D op).width = D.width ∧ (applyOp isWide D op).rows = D.rows
      ∧ (applyOp isWide D op).style = D.style := by
  cases op <;> first
    | exact h.elim
    | exact ⟨rfl, rfl, rfl⟩

/-- A stream of cursor-only operations changes neither the width, the
rows nor the held style of the virtual backend. -/
theorem applyOps_cursorOnly (isWide : String → Bool) (ops : List Operation)
    (h : ∀ op ∈ ops, cursorOnlyOp op) :
    ∀ D, (applyOps isWide ops D).width = D.width ∧ (applyOps isWide ops D).rows = D.rows
      ∧ (applyOps isWide ops D).style = D.style := by
  induction ops with
  | nil => exact fun D => ⟨rfl, rfl, rfl⟩
  | cons op ops ih =>
    intro D
    have h1 := applyOp_cursorOnly isWide D op (h op (List.mem_cons_self _ _))
    have h2 := ih (fun p hp => h p (List.mem_cons_of_mem _ hp)) (applyOp isWide D op)
    exact ⟨h2.1.trans h1.1, h2.2.1.trans h1.2.1, h2.2.2.trans h1.2.2⟩

/-- Witness for the flag-leak theorem at a failing stdio capture. -/
theorem terminal_exists_flag_leak_witness :
    ((true : Bool) = true ∨ (false : Bool) = true ∨ (false : Bool) = true)
    ∧ ((terminalNew false true false false false).1 = NewOutcome.errored
       ∧ (terminalNew false true false false false).2 = true
       ∧ ∀ sf2 bf2 uf2 : Bool,
           (terminalNew false sf2 bf2 uf2 (terminalNew false true false false false).2).1 =
             NewOutcome.panicked) :=
  ⟨Or.inl rfl, terminal_exists_flag_leak true false false (Or.inl rfl)⟩

/-- C1: For every old buffer A and new buffer B of the same size (same
width and same row count), with well-formed grids whose double flags
agree with the width function, and every prior held style and tracked
cursor position, applying the operation stream of Terminal::diff to a
virtual backend initialized from A yields a grid structurally equal to
B's grid: the same width and exactly B's rows. -/
theorem diff_applied_to_virtual_backend (isWide : String → Bool) (A B : Buffer)
    (s : DiffState)
    (hw : A.grid.width = B.grid.width)
    (hh : A.grid.rows.length = B.grid.rows.length)
    (hA : gridWF A.grid) (hB : gridWF B.grid) (hBW : wideGrid isWide B.grid) :
    (applyOps isWide (diff A B s).1 (dummyInit A s)).width = B.grid.width
      ∧ (applyOps isWide (diff A B s).1 (dummyInit A s)).rows = B.grid.rows := by
  have h1 := diffRows_apply isWide B.grid.width A.grid.rows B.grid.rows [] 0 s
    (dummyInit A s) rfl hh (fun r hr => hw ▸ hA r hr) hB hBW hw rfl rfl rfl
  rw [show (diff A B s).1
      = (diffRows B.grid.width 0 A.grid.rows B.grid.rows s).1
          ++ [Operation.setBackground Color.default]
          ++ cursorRecon A.cursor B.cursor
              (diffRows B.grid.width 0 A.grid.rows B.grid.rows s).2.cursorPos
      from rfl]
  rw [applyOps_append, applyOps_append, h1]
  have hco := applyOps_cursorOnly isWide
    (cursorRecon A.cursor B.cursor
      (diffRows B.grid.width 0 A.grid.rows B.grid.rows s).2.cursorPos)
    (cursorRecon_cursorOnly _ _ _)
  constructor
  · rw [(hco _).1]
    exact hw
  · rw [(hco _).2.1]
    rfl

/-- Witness: the differ from a blank 2-by-1 buffer to a buffer holding
the glyph a, applied to the virtual backend, reproduces the new grid. -/
theorem diff_applied_to_virtual_backend_witness :
    (applyOps (fun _ => false)
        (diff ⟨⟨2, [[Cell.blank, Cell.blank]]⟩, none⟩
          ⟨⟨2, [[Cell.char ("a") false Style.default, Cell.blank]]⟩, none⟩
          ⟨Style.default, ⟨0, 0⟩⟩).1
        (dummyInit ⟨⟨2, [[Cell.blank, Cell.blank]]⟩, none⟩ ⟨Style.default, ⟨0, 0⟩⟩)).width
      = (⟨⟨2, [[Cell.char ("a") false Style.default, Cell.blank]]⟩, none⟩ : Buffer).grid.width
    ∧ (applyOps (fun _ => false)
        (diff ⟨⟨2, [[Cell.blank, Cell.blank]]⟩, none⟩
          ⟨⟨2, [[Cell.char ("a") false Style.default, Cell.blank]]⟩, none⟩
          ⟨Style.default, ⟨0, 0⟩⟩).1
        (dummyInit ⟨⟨2, [[Cell.blank, Cell.blank]]⟩, none⟩ ⟨Style.default, ⟨0, 0⟩⟩)).rows
      = (⟨⟨2, [[Cell.char ("a") false Style.default, Cell.blank]]⟩, none⟩ : Buffer).grid.rows :=
  diff_applied_to_virtual_backend (fun _ => false)
    ⟨⟨2, [[Cell.blank, Cell.blank]]⟩, none⟩
    ⟨⟨2, [[Cell.char ("a") false Style.default, Cell.blank]]⟩, none⟩
    ⟨Style.default, ⟨0, 0⟩⟩
    rfl rfl (by decide) (by decide) (by decide)

end Toon
